import Mathlib

/-!
Verification development for the News Novelty / Deduplication Engine of the
Aktien-Briefing repository (`core/news_novelty.py` and `utils/news_memory.py`).

The Python source is shallowly embedded as executable Lean definitions.
Modelling conventions, stated once here and referenced in doc comments below:

* Python `str` is modelled by Lean `String`; character-class predicates
  (`str.lower`, `str.isalnum`, `str.isspace`, `str.strip`) are modelled on the
  ASCII plane, which covers every concrete input appearing in this development.
* Python `float` is modelled by `ℚ`; the only irrational operation in the
  source, `x ** 0.5`, is modelled by `ratSqrt`, which is exact on perfect
  squares (where IEEE sqrt is also exact); every concrete similarity computed
  in this file involves only integer-norm vectors, where the model and IEEE
  agree.
* `hashlib.sha256(...).hexdigest()` is modelled by a collision-free tagging
  function (`sha256_hex`); the source only ever compares digests for equality.
* `datetime.utcnow()` and `datetime.fromisoformat` are modelled by an explicit
  `now : ℤ` (a UTC timestamp in seconds) and an explicit parse function
  `parse_iso : String → Option ℤ` threaded as arguments; `timedelta(days=d)`
  is `86400 * d` seconds.
* The embedding provider `_embed_texts` (an OpenAI network call whose
  exceptions are caught and turned into `None`) is modelled by a function
  argument `provider : List String → Option (List (List ℚ))`; `none` models
  the caught-failure outcome.
-/

/-- ASCII model of Python `str.lower` applied to one character. -/
def pyLowerChar (c : Char) : Char :=
  if 65 ≤ c.toNat && c.toNat ≤ 90 then Char.ofNat (c.toNat + 32) else c

/-- ASCII model of Python `ch.isalnum()`. -/
def pyIsAlnum (c : Char) : Bool :=
  (97 ≤ c.toNat && c.toNat ≤ 122) || (65 ≤ c.toNat && c.toNat ≤ 90) ||
    (48 ≤ c.toNat && c.toNat ≤ 57)

/-- ASCII model of Python `ch.isspace()`: space, tab, newline, carriage
return, vertical tab, form feed. -/
def pyIsSpace (c : Char) : Bool :=
  c.toNat = 32 || c.toNat = 9 || c.toNat = 10 || c.toNat = 13 ||
    c.toNat = 11 || c.toNat = 12

/-- Python `str.lower` (ASCII model), on a character list. -/
def pyLowerList (l : List Char) : List Char := l.map pyLowerChar

/-- Python `str.lower` (ASCII model). -/
def pyLower (s : String) : String := ⟨pyLowerList s.data⟩

/-- Splitting step of Python `str.split()` (no separator): the list of
maximal runs of non-whitespace characters, empty runs dropped.
`acc` is the word currently being read, in reverse. -/
def pySplitWsAux : List Char → List Char → List (List Char)
  | [], [] => []
  | [], acc => [acc.reverse]
  | c :: rest, acc =>
    if pyIsSpace c then
      match acc with
      | [] => pySplitWsAux rest []
      | _ => acc.reverse :: pySplitWsAux rest []
    else
      pySplitWsAux rest (c :: acc)

/-- Python `str.split()` with no arguments (split on whitespace runs,
dropping empty tokens), on a character list. -/
def pySplitWs (l : List Char) : List (List Char) := pySplitWsAux l []

/-- Python `" ".join(words)`, on character lists. -/
def pyJoinSpace (ws : List (List Char)) : List Char :=
  match ws with
  | [] => []
  | w :: rest => w ++ (rest.map (fun x => ' ' :: x)).flatten

/-- The per-character replacement of `normalize_text`:
`ch if ch.isalnum() or ch.isspace() else " "`. -/
def cleanChar (ch : Char) : Char :=
  if pyIsAlnum ch || pyIsSpace ch then ch else ' '

/-- Embeds `utils/news_memory.py::normalize_text`: lowercase, replace every
character that is neither alphanumeric nor whitespace by a space, then
collapse whitespace runs via `" ".join(text.split())`. -/
def normalize_text (text : String) : String :=
  if text = "" then ""
  else
    let lowered := pyLowerList text.data
    let cleaned := lowered.map cleanChar
    ⟨pyJoinSpace (pySplitWs cleaned)⟩

/-- Models `utils/news_memory.py::_sha256`, i.e.
`hashlib.sha256(text.encode("utf-8")).hexdigest()`, as a collision-free
tagging function.  The source compares digests only for equality, so any
injective function is a faithful model of the digest's role; the SHA-256
compression itself is not part of the verified claims. -/
def sha256_hex (text : String) : String := "sha256:" ++ text

/-- Embeds `utils/news_memory.py::build_title_fingerprint`. -/
def build_title_fingerprint (title : String) : String :=
  sha256_hex (normalize_text title)

/-- Embeds `utils/news_memory.py::build_summary_fingerprint`. -/
def build_summary_fingerprint (summary : String) : String :=
  sha256_hex (normalize_text summary)

/-- Digit-by-digit integer square root with explicit fuel (structural
recursion of logarithmic depth, so that the kernel can evaluate it, unlike
the well-founded `Nat.sqrt`): `sqrt n = 2 * sqrt (n / 4)`, corrected
upward by one when possible. -/
def natISqrtAux : ℕ → ℕ → ℕ
  | 0, _ => 0
  | fuel + 1, n =>
    if n < 2 then n
    else
      let r := 2 * natISqrtAux fuel (n / 4)
      if (r + 1) * (r + 1) ≤ n then r + 1 else r

/-- Integer square root (floor), kernel-computable; `n` is enough fuel. -/
def natISqrt (n : ℕ) : ℕ := natISqrtAux n n

/-- Model of Python `x ** 0.5` on nonnegative rationals: exact when numerator
and denominator are perfect squares (there IEEE sqrt is also exact), and a
floor-of-square-root approximation otherwise.  Every concrete vector used in
this development has a perfect-square norm, so the model and the float code
agree on all evaluated inputs.  (Negative inputs never occur: the source only
takes square roots of sums of squares.) -/
def ratSqrt (q : ℚ) : ℚ :=
  let n : ℕ := q.num.toNat
  let d : ℕ := q.den
  if natISqrt n * natISqrt n = n ∧ natISqrt d * natISqrt d = d then
    (natISqrt n : ℚ) / (natISqrt d : ℚ)
  else
    (natISqrt (n * d) : ℚ) / (d : ℚ)

/-- Embeds `utils/news_memory.py::cosine_similarity`.  Returns `0.0` when
either vector is empty or lengths differ, and `0.0` when either norm is zero;
otherwise the normalised dot product. -/
def cosine_similarity (vec_a vec_b : List ℚ) : ℚ :=
  if vec_a = [] ∨ vec_b = [] ∨ vec_a.length ≠ vec_b.length then 0
  else
    let dot := (List.zipWith (fun a b => a * b) vec_a vec_b).sum
    let norm_a := ratSqrt (vec_a.map (fun a => a * a)).sum
    let norm_b := ratSqrt (vec_b.map (fun b => b * b)).sum
    if norm_a = 0 ∨ norm_b = 0 then 0
    else dot / (norm_a * norm_b)

/-!
Model of the part of CPython 3.11 `urllib.parse` used by
`utils/news_memory.py::canonicalize_url`: `urlparse`, `urlunparse`,
`parse_qsl(..., keep_blank_values=True)` and `urlencode(..., doseq=True)`,
together with their helpers (`urlsplit`, `_splitparams`, `_splitnetloc`,
`urlunsplit`, `quote_plus`, `unquote`).  Strings are handled as `List Char`.
Deliberate model restrictions (none is exercised by the claims): the
`ValueError`s raised by `urlsplit` for unbalanced IPv6 brackets and by
`_checknetloc` for non-ASCII netlocs are omitted, and the `errors="replace"`
UTF-8 decoding of invalid percent-encoded byte sequences follows the
standard maximal-subpart replacement rule.
-/

/-- ASCII letter test (`url[0].isascii() and url[0].isalpha()`). -/
def asciiAlpha (c : Char) : Bool :=
  (97 ≤ c.toNat && c.toNat ≤ 122) || (65 ≤ c.toNat && c.toNat ≤ 90)

/-- CPython `urllib.parse.scheme_chars`. -/
def schemeChar (c : Char) : Bool :=
  asciiAlpha c || (48 ≤ c.toNat && c.toNat ≤ 57) || c = '+' || c = '-' || c = '.'

/-- Python `str.strip()` with no arguments (ASCII-whitespace model). -/
def pyStripList (l : List Char) : List Char :=
  ((l.dropWhile pyIsSpace).reverse.dropWhile pyIsSpace).reverse

/-- Python `str.strip()` on `String`. -/
def pyStrip (s : String) : String := ⟨pyStripList s.data⟩

/-- Membership of `_WHATWG_C0_CONTROL_OR_SPACE` (code points up to 0x20). -/
def c0ControlOrSpace (c : Char) : Bool := c.toNat ≤ 0x20

/-- The `url.replace(b, "")` loop of `urlsplit` over
`_UNSAFE_URL_BYTES_TO_REMOVE` (tab, carriage return, newline). -/
def removeUnsafeBytes (l : List Char) : List Char :=
  l.filter (fun c => !(c = '\t' || c = '\x0d' || c = '\n'))

/-- Split at the first occurrence of `sep` (separator removed); `none` when
`sep` does not occur.  Models Python `s.split(sep, 1)` and `s.find(sep)`. -/
def splitAtChar (sep : Char) : List Char → Option (List Char × List Char)
  | [] => none
  | c :: rest =>
    if c = sep then some ([], rest)
    else
      match splitAtChar sep rest with
      | none => none
      | some (a, b) => some (c :: a, b)

/-- Accumulating pass of `pySplitSep`; `acc` is the current field in
reverse. -/
def pySplitSepAux (sep : Char) : List Char → List Char → List (List Char)
  | [], acc => [acc.reverse]
  | c :: rest, acc =>
    if c = sep then acc.reverse :: pySplitSepAux sep rest []
    else pySplitSepAux sep rest (c :: acc)

/-- Python `s.split(sep)` (single-character separator), keeping empty
fields: `"a&&b" → ["a", "", "b"]`. -/
def pySplitSep (sep : Char) (l : List Char) : List (List Char) :=
  pySplitSepAux sep l []

/-- Hexadecimal digit value, both cases (CPython `_hextobyte` accepts
mixed-case digits). -/
def hexDigitVal (c : Char) : Option ℕ :=
  if 48 ≤ c.toNat && c.toNat ≤ 57 then some (c.toNat - 48)
  else if 97 ≤ c.toNat && c.toNat ≤ 102 then some (c.toNat - 87)
  else if 65 ≤ c.toNat && c.toNat ≤ 70 then some (c.toNat - 55)
  else none

/-- UTF-8 encoding of one character (Python `str.encode("utf-8")`). -/
def utf8EncodeChar (c : Char) : List ℕ :=
  let v := c.toNat
  if v < 0x80 then [v]
  else if v < 0x800 then [0xC0 + v / 64, 0x80 + v % 64]
  else if v < 0x10000 then [0xE0 + v / 4096, 0x80 + v / 64 % 64, 0x80 + v % 64]
  else [0xF0 + v / 262144, 0x80 + v / 4096 % 64, 0x80 + v / 64 % 64, 0x80 + v % 64]

/-- Continuation-byte test `0x80 ≤ b ≤ 0xBF`. -/
def utf8Cont (b : ℕ) : Bool := 0x80 ≤ b && b ≤ 0xBF

/-- One step of UTF-8 decoding: decode a single scalar whose lead byte is
`b` and whose remaining input is `rest`; `none` when no valid sequence
starts here.  The validity windows for the first continuation byte follow
the table used by CPython's strict decoder (no overlongs, no surrogates,
nothing above U+10FFFF). -/
def utf8Decode1 (b : ℕ) (rest : List ℕ) : Option (Char × List ℕ) :=
  if b < 0x80 then some (Char.ofNat b, rest)
  else if 0xC2 ≤ b && b ≤ 0xDF then
    match rest with
    | b1 :: rest' =>
      if utf8Cont b1 then
        some (Char.ofNat ((b - 0xC0) * 64 + (b1 - 0x80)), rest')
      else none
    | [] => none
  else if 0xE0 ≤ b && b ≤ 0xEF then
    match rest with
    | b1 :: b2 :: rest' =>
      if ((b = 0xE0 && 0xA0 ≤ b1 && b1 ≤ 0xBF) ||
          (b = 0xED && 0x80 ≤ b1 && b1 ≤ 0x9F) ||
          (b ≠ 0xE0 && b ≠ 0xED && utf8Cont b1)) && utf8Cont b2 then
        some (Char.ofNat ((b - 0xE0) * 4096 + (b1 - 0x80) * 64 + (b2 - 0x80)), rest')
      else none
    | _ => none
  else if 0xF0 ≤ b && b ≤ 0xF4 then
    match rest with
    | b1 :: b2 :: b3 :: rest' =>
      if ((b = 0xF0 && 0x90 ≤ b1 && b1 ≤ 0xBF) ||
          (b = 0xF4 && 0x80 ≤ b1 && b1 ≤ 0x8F) ||
          (b ≠ 0xF0 && b ≠ 0xF4 && utf8Cont b1)) && utf8Cont b2 && utf8Cont b3 then
        some (Char.ofNat ((b - 0xF0) * 262144 + (b1 - 0x80) * 4096 +
            (b2 - 0x80) * 64 + (b3 - 0x80)), rest')
      else none
    | _ => none
  else none

/-- Fuel-driven decoding loop: on a valid sequence, emit its scalar and
continue after it; otherwise emit U+FFFD for the offending lead byte and
continue at the next byte.  `fuel ≥ length` makes the fuel immaterial. -/
def utf8DecodeLoop : ℕ → List ℕ → List Char
  | _, [] => []
  | 0, _ :: _ => []
  | fuel + 1, b :: rest =>
    match utf8Decode1 b rest with
    | some (c, rest') => c :: utf8DecodeLoop fuel rest'
    | none => '�' :: utf8DecodeLoop fuel rest

/-- UTF-8 decoding of a byte sequence with `errors="replace"` (Python
`bytes.decode("utf-8", "replace")`): invalid sequences become U+FFFD. -/
def utf8DecodeReplace (l : List ℕ) : List Char := utf8DecodeLoop l.length l

/-- One token of the unquoting scan: a byte (from a literal ASCII character
or a decoded `%XX` escape) or a non-ASCII character passed through verbatim
(CPython `unquote` splits on `_asciire` and only byte-decodes ASCII runs). -/
inductive UnquoteTok where
  | byte (b : ℕ)
  | chr (c : Char)
deriving DecidableEq, Repr

/-- Scanning phase of CPython `unquote`: `%XX` with two hex digits becomes
the byte `XX`; a `%` not followed by two hex digits stays a literal `%`
byte; ASCII characters become their own byte; non-ASCII characters pass
through as characters. -/
def unquoteToks : List Char → List UnquoteTok
  | [] => []
  | '%' :: c1 :: c2 :: rest =>
    match hexDigitVal c1, hexDigitVal c2 with
    | some h1, some h2 => .byte (h1 * 16 + h2) :: unquoteToks rest
    | _, _ => .byte 37 :: unquoteToks (c1 :: c2 :: rest)
  | '%' :: [c1] => .byte 37 :: unquoteToks [c1]
  | ['%'] => [.byte 37]
  | c :: rest =>
    if c.toNat < 0x80 then .byte c.toNat :: unquoteToks rest
    else .chr c :: unquoteToks rest

/-- Grouping phase of CPython `unquote`: maximal byte runs are UTF-8-decoded
with replacement; pass-through characters are emitted verbatim.  `acc` holds
the current byte run in reverse. -/
def unquoteFlush : List UnquoteTok → List ℕ → List Char
  | [], acc => utf8DecodeReplace acc.reverse
  | .byte b :: rest, acc => unquoteFlush rest (b :: acc)
  | .chr c :: rest, acc => utf8DecodeReplace acc.reverse ++ c :: unquoteFlush rest []

/-- CPython `urllib.parse.unquote` (with the default
`encoding="utf-8", errors="replace"`). -/
def pyUnquote (l : List Char) : List Char :=
  if '%' ∈ l then unquoteFlush (unquoteToks l) [] else l

/-- CPython `urllib.parse.unquote_plus`: `+` becomes a space, then
percent-decoding. -/
def pyUnquotePlus (l : List Char) : List Char :=
  pyUnquote (l.map (fun c => if c = '+' then ' ' else c))

/-- CPython `_ALWAYS_SAFE` byte test: ASCII alphanumerics and `_.-~`. -/
def alwaysSafeByte (b : ℕ) : Bool :=
  (48 ≤ b && b ≤ 57) || (65 ≤ b && b ≤ 90) || (97 ≤ b && b ≤ 122) ||
    b = 45 || b = 46 || b = 95 || b = 126

/-- Upper-case hexadecimal digit (CPython quoting uses `'%%%02X'`). -/
def hexUpper (n : ℕ) : Char :=
  if n < 10 then Char.ofNat (48 + n) else Char.ofNat (55 + n)

/-- Percent-encoding of one byte. -/
def pctEncodeByte (b : ℕ) : List Char := ['%', hexUpper (b / 16), hexUpper (b % 16)]

/-- CPython `urllib.parse.quote` restricted to a set of extra safe bytes:
UTF-8 encode, then keep always-safe and safe bytes, percent-encode the
rest. -/
def pyQuoteSafe (safe : List ℕ) (l : List Char) : List Char :=
  (l.map utf8EncodeChar).flatten.flatMap (fun b =>
    if alwaysSafeByte b || b ∈ safe then [Char.ofNat b] else pctEncodeByte b)

/-- CPython `urllib.parse.quote_plus` with `safe=""` (the `quote_via` used
by `urlencode`): when the string contains a space, quote with space safe and
then turn spaces into `+`; otherwise plain quote. -/
def pyQuotePlus (l : List Char) : List Char :=
  if ' ' ∈ l then
    (pyQuoteSafe [32] l).map (fun c => if c = ' ' then '+' else c)
  else pyQuoteSafe [] l

/-- CPython `urllib.parse.parse_qsl(qs, keep_blank_values=True)` with the
default `&` separator: split on `&`, skip empty fields, split each field at
the first `=` (a field without `=` keeps a blank value), then
`+`-and-percent-decode names and values. -/
def pyParseQsl (qs : List Char) : List (List Char × List Char) :=
  let query_args := if qs = [] then [] else pySplitSep '&' qs
  query_args.foldr (fun name_value r =>
    if name_value = [] then r
    else
      match splitAtChar '=' name_value with
      | some (n, v) => (pyUnquotePlus n, pyUnquotePlus v) :: r
      | none => (pyUnquotePlus name_value, pyUnquotePlus []) :: r) []

/-- CPython `urllib.parse.urlencode(query, doseq=True)` for a list of
string pairs: quote names and values with `quote_plus` and join with
`&` and `=`. -/
def pyUrlencode (query : List (List Char × List Char)) : List Char :=
  match query.map (fun kv => pyQuotePlus kv.1 ++ '=' :: pyQuotePlus kv.2) with
  | [] => []
  | p :: ps => p ++ (ps.map (fun x => '&' :: x)).flatten

/-- Result of `urlparse`: the six components
`scheme://netloc/path;params?query#fragment`. -/
structure ParseResultL where
  scheme : List Char
  netloc : List Char
  path : List Char
  params : List Char
  query : List Char
  fragment : List Char
deriving DecidableEq, Repr

/-- CPython `_splitnetloc`: the netloc extends to the first `/`, `?` or
`#`. -/
def netlocDelim (c : Char) : Bool := c = '/' || c = '?' || c = '#'

/-- Scheme-detection step of `urlsplit`: if the text up to the first `:`
is non-empty, starts with an ASCII letter and consists of scheme
characters, it is the (lowercased) scheme. -/
def urlsplitScheme (url : List Char) : List Char × List Char :=
  match splitAtChar ':' url with
  | none => ([], url)
  | some (before, after) =>
    match before with
    | [] => ([], url)
    | c0 :: _ =>
      if asciiAlpha c0 && before.all schemeChar then (pyLowerList before, after)
      else ([], url)

/-- CPython `urllib.parse.urlsplit` (3.11, `allow_fragments=True`), without
the IPv6-bracket and NFKC netloc `ValueError` checks (they only raise, and
no claim exercises them): lstrip C0 controls and spaces, remove tab, CR and
LF, detect the scheme, split off `//netloc`, then fragment, then query. -/
def pyUrlsplitParts (url0 : List Char) :
    List Char × List Char × List Char × List Char × List Char :=
  let url1 := removeUnsafeBytes (url0.dropWhile c0ControlOrSpace)
  let (scheme, url2) := urlsplitScheme url1
  let (netloc, url3) :=
    if url2.take 2 = ['/', '/'] then
      ((url2.drop 2).takeWhile (fun c => !netlocDelim c),
        (url2.drop 2).dropWhile (fun c => !netlocDelim c))
    else ([], url2)
  let (url4, fragment) :=
    match splitAtChar '#' url3 with
    | some (a, b) => (a, b)
    | none => (url3, [])
  let (path, query) :=
    match splitAtChar '?' url4 with
    | some (a, b) => (a, b)
    | none => (url4, [])
  (scheme, netloc, path, query, fragment)

/-- CPython `urllib.parse.uses_params`. -/
def usesParams : List (List Char) :=
  ["", "ftp", "hdl", "prospero", "http", "imap", "https", "shttp", "rtsp",
    "rtsps", "rtspu", "sip", "sips", "mms", "sftp", "tel"].map String.data

/-- CPython `urllib.parse.uses_netloc`. -/
def usesNetloc : List (List Char) :=
  ["", "ftp", "http", "gopher", "nntp", "telnet", "imap", "wais", "file",
    "mms", "https", "shttp", "snews", "prospero", "rtsp", "rtsps", "rtspu",
    "rsync", "svn", "svn+ssh", "sftp", "nfs", "git", "git+ssh", "ws",
    "wss"].map String.data

/-- CPython `_splitparams`: split the path at the first `;` after the last
`/` (or the first `;` overall when there is no `/`). -/
def pySplitParams (url : List Char) : List Char × List Char :=
  if '/' ∈ url then
    let j := (url.reverse.takeWhile (fun c => c ≠ '/')).length
    let stem := url.take (url.length - j)
    let last := url.drop (url.length - j)
    match splitAtChar ';' last with
    | none => (url, [])
    | some (a, b) => (stem ++ a, b)
  else
    match splitAtChar ';' url with
    | none => (url, [])
    | some (a, b) => (a, b)

/-- CPython `urllib.parse.urlparse` (3.11): `urlsplit`, then split params
off the path when the scheme uses params and the path contains `;`. -/
def pyUrlparse (url : List Char) : ParseResultL :=
  let (scheme, netloc, p, query, fragment) := pyUrlsplitParts url
  let (path, params) :=
    if scheme ∈ usesParams && ';' ∈ p then pySplitParams p
    else (p, [])
  { scheme := scheme, netloc := netloc, path := path, params := params,
    query := query, fragment := fragment }

/-- CPython `urllib.parse.urlunsplit` (3.11). -/
def pyUrlunsplit (scheme netloc url query fragment : List Char) : List Char :=
  let url :=
    if netloc ≠ [] || (scheme ≠ [] && scheme ∈ usesNetloc && url.take 2 ≠ ['/', '/']) then
      let url' := if url ≠ [] && url.take 1 ≠ ['/'] then '/' :: url else url
      '/' :: '/' :: (netloc ++ url')
    else url
  let url := if scheme ≠ [] then scheme ++ ':' :: url else url
  let url := if query ≠ [] then url ++ '?' :: query else url
  if fragment ≠ [] then url ++ '#' :: fragment else url

/-- CPython `urllib.parse.urlunparse`: re-attach params to the path, then
`urlunsplit`. -/
def pyUrlunparse (c : ParseResultL) : List Char :=
  let url := if c.params ≠ [] then c.path ++ ';' :: c.params else c.path
  pyUrlunsplit c.scheme c.netloc url c.query c.fragment

/-- The fixed tracking-parameter set `TRACKING_PARAMS` of
`utils/news_memory.py`. -/
def trackingParams : List (List Char) :=
  ["utm_source", "utm_medium", "utm_campaign", "utm_term", "utm_content",
    "gclid", "fbclid", "mc_cid", "mc_eid", "ref", "src", "mkt", "oc",
    "aid"].map String.data

/-- Lexicographic strict order on character lists by code point (Python
string `<`, as used by `list.sort(key=lambda x: x[0])`). -/
def listCharLt : List Char → List Char → Bool
  | [], [] => false
  | [], _ :: _ => true
  | _ :: _, [] => false
  | a :: as', b :: bs' =>
    if a < b then true
    else if b < a then false
    else listCharLt as' bs'

/-- Stable insertion of a pair into a key-sorted list (a pair stops in
front of the first strictly greater key, so equal keys keep their original
relative order, as Python's stable `list.sort(key=...)` does). -/
def insertByKey (x : List Char × List Char) :
    List (List Char × List Char) → List (List Char × List Char)
  | [] => [x]
  | y :: ys =>
    if listCharLt y.1 x.1 then y :: insertByKey x ys
    else x :: y :: ys

/-- Stable sort by key, modelling `filtered_query.sort(key=lambda x: x[0])`
(Python's Timsort is stable). -/
def pySortByKey (l : List (List Char × List Char)) :
    List (List Char × List Char) :=
  l.foldr insertByKey []

/-- The component transformation of `canonicalize_url` (the `_replace`
call): lowercase the scheme, lowercase the netloc and strip one leading
`www.`, drop tracking query parameters (by lowercased key), sort the
remaining pairs stably by key and re-encode them, and drop the
fragment. -/
def canonicalClean (parsed : ParseResultL) : ParseResultL :=
  let query := pyParseQsl parsed.query
  let filtered_query := query.filter (fun kv => !(pyLowerList kv.1 ∈ trackingParams))
  let sorted_query := pySortByKey filtered_query
  let netloc0 := pyLowerList parsed.netloc
  let netloc := if netloc0.take 4 = ['w', 'w', 'w', '.'] then netloc0.drop 4 else netloc0
  { parsed with
      scheme := pyLowerList parsed.scheme
      netloc := netloc
      query := pyUrlencode sorted_query
      fragment := [] }

/-- Embeds `utils/news_memory.py::canonicalize_url`: strip the input, parse
(`urlparse`), clean the components (`canonicalClean`), and reassemble
(`urlunparse`). -/
def canonicalize_url (url : String) : String :=
  if url = "" then ""
  else ⟨pyUrlunparse (canonicalClean (pyUrlparse (pyStripList url.data)))⟩

/-- One previously-sent news item for one stock, as produced by
`utils/news_memory.py::build_memory_entry` and stored in the memory JSON.
`topic_embedding = none` models an absent or non-list JSON value (the
`isinstance(ref_emb, list)` check in `find_semantic_match`); `some []` models
an empty list. -/
structure MemoryEntry where
  stock_name : String
  date_sent : String
  canonical_url_hash : String
  title_fingerprint : String
  summary_fingerprint : String
  topic_embedding : Option (List ℚ)
  summary_text : String
  source : String
  link : String
  title : String
deriving DecidableEq, Repr

/-- The memory store root object `{version, entries}`. -/
structure Memory where
  version : ℤ
  entries : List MemoryEntry
deriving DecidableEq, Repr

/-- Embeds `utils/news_memory.py::entries_for_stock`.  `parse_iso` models
`_parse_iso` (i.e. `datetime.fromisoformat` on the string with a trailing
`Z` removed, `None` on failure), `now` models `datetime.utcnow()` as a UTC
timestamp in seconds; `timedelta(days=lookback_days)` is `86400 *
lookback_days` seconds. -/
def entries_for_stock (parse_iso : String → Option ℤ) (now : ℤ)
    (memory : Memory) (stock_name : String) (lookback_days : ℤ) :
    List MemoryEntry :=
  if lookback_days ≤ 0 then
    memory.entries.filter (fun e => e.stock_name = stock_name)
  else
    let cutoff := now - 86400 * lookback_days
    let rec loop : List MemoryEntry → List MemoryEntry
      | [] => []
      | entry :: rest =>
        if entry.stock_name ≠ stock_name then loop rest
        else
          match parse_iso entry.date_sent with
          | none => entry :: loop rest
          | some sent_at =>
            if cutoff ≤ sent_at then entry :: loop rest else loop rest
    loop memory.entries

/-- Embeds `utils/news_memory.py::prune_memory`.  The source returns the
mutated store and logs the number of removed entries; the log effect is
modelled as the second component of the returned pair (0 when nothing is
logged, i.e. in the `retention_days <= 0` branch). -/
def prune_memory (parse_iso : String → Option ℤ) (now : ℤ)
    (memory : Memory) (retention_days : ℤ) : Memory × ℕ :=
  if retention_days ≤ 0 then (memory, 0)
  else
    let cutoff := now - 86400 * retention_days
    let original_len := memory.entries.length
    let pruned_entries := memory.entries.filter (fun entry =>
      match parse_iso entry.date_sent with
      | none => true
      | some sent_at => decide (cutoff ≤ sent_at))
    ({ memory with entries := pruned_entries },
      original_len - pruned_entries.length)

/-- Embeds `utils/news_memory.py::is_exact_duplicate` (the early-returning
loop over stock entries). -/
def is_exact_duplicate (stock_entries : List MemoryEntry)
    (canonical_url_hash title_fingerprint : String)
    (exact_url_dedupe exact_title_dedupe : Bool) : Bool :=
  match stock_entries with
  | [] => false
  | entry :: rest =>
    if exact_url_dedupe && canonical_url_hash ≠ "" &&
        entry.canonical_url_hash = canonical_url_hash then true
    else if exact_title_dedupe && title_fingerprint ≠ "" &&
        entry.title_fingerprint = title_fingerprint then true
    else is_exact_duplicate rest canonical_url_hash title_fingerprint
        exact_url_dedupe exact_title_dedupe

/-- Result record of `find_semantic_match`: the dict
`{"entry": best_entry, "score": best_score}`. -/
structure SemanticMatch where
  entry : MemoryEntry
  score : ℚ
deriving DecidableEq, Repr

/-- Best-entry/best-score accumulation loop of
`utils/news_memory.py::find_semantic_match` (strict `>`, so the first entry
reaching the best score wins, starting from `best_score = 0.0` and
`best_entry = None`; entries whose `topic_embedding` is not a list are
skipped). -/
def findSemanticLoop (candidate_embedding : List ℚ) :
    List MemoryEntry → Option MemoryEntry → ℚ → Option MemoryEntry × ℚ
  | [], best_entry, best_score => (best_entry, best_score)
  | entry :: rest, best_entry, best_score =>
    match entry.topic_embedding with
    | none => findSemanticLoop candidate_embedding rest best_entry best_score
    | some ref_emb =>
      let score := cosine_similarity candidate_embedding ref_emb
      if best_score < score then
        findSemanticLoop candidate_embedding rest (some entry) score
      else
        findSemanticLoop candidate_embedding rest best_entry best_score

/-- Embeds `utils/news_memory.py::find_semantic_match`.  A falsy candidate
embedding (`None` or the empty list) yields no match; otherwise the best
match is returned when its score reaches `threshold`. -/
def find_semantic_match (stock_entries : List MemoryEntry)
    (candidate_embedding : Option (List ℚ)) (threshold : ℚ) :
    Option SemanticMatch :=
  match candidate_embedding with
  | none => none
  | some [] => none
  | some emb =>
    match findSemanticLoop emb stock_entries none 0 with
    | (none, _) => none
    | (some best_entry, best_score) =>
      if threshold ≤ best_score then
        some { entry := best_entry, score := best_score }
      else none

/-- A candidate article handed to the novelty filter:
`{title, content, link, source_name}`. -/
structure Article where
  link : String
  title : String
  content : String
  source_name : String
deriving DecidableEq, Repr

/-- Embeds `utils/news_memory.py::build_memory_entry`.  The optional
`date_sent` argument is modelled as the already-resolved timestamp string
(`date_sent or _utc_now_iso()` in the source); `topic_embedding or []`
turns a falsy argument into the empty list. -/
def build_memory_entry (stock_name : String) (article : Article)
    (summary_text : String) (topic_embedding : Option (List ℚ))
    (date_sent : String) : MemoryEntry :=
  let canonical_url := canonicalize_url article.link
  { stock_name := stock_name
    date_sent := date_sent
    canonical_url_hash := if canonical_url ≠ "" then sha256_hex canonical_url else ""
    title_fingerprint := build_title_fingerprint article.title
    summary_fingerprint := build_summary_fingerprint summary_text
    topic_embedding := some (topic_embedding.getD [])
    summary_text := summary_text.take 500
    source := article.source_name
    link := article.link
    title := article.title }

/-- The configuration fields consumed by `filter_news_by_novelty`, after the
`cfg.get(...)`-with-default casts at the top of the function
(`lookback_days`, `semantic_threshold`, `exact_url_dedupe`,
`exact_title_dedupe`). -/
structure NoveltyConfig where
  lookback_days : ℤ
  semantic_threshold : ℚ
  exact_url_dedupe : Bool
  exact_title_dedupe : Bool
deriving DecidableEq, Repr

/-- A pass-1 survivor: the input article together with the derived fields
the source attaches in place (`_canonical_url_hash`, `_title_fingerprint`). -/
structure Candidate where
  article : Article
  canonical_url_hash : String
  title_fingerprint : String
deriving DecidableEq, Repr

/-- An accepted novel article: a pass-1 survivor with the attached
`_novelty_embedding` (the empty list when the candidate had no truthy
embedding, from `candidate_embedding or []`). -/
structure NewItem where
  article : Article
  canonical_url_hash : String
  title_fingerprint : String
  novelty_embedding : List ℚ
deriving DecidableEq, Repr

/-- One record of `suppressed_known_topics`; `similarity` is `none` for
exact duplicates (the source omits the key) and `some` of the rounded score
for semantic duplicates. -/
structure SuppressedTopic where
  title : String
  link : String
  reason : String
  similarity : Option ℚ
deriving DecidableEq, Repr

/-- The `stats` dict of the filter result. -/
structure NoveltyStats where
  fetched : ℕ
  exact_dupes : ℕ
  semantic_dupes : ℕ
  new_count : ℕ
deriving DecidableEq, Repr

/-- The result dict of `filter_news_by_novelty`. -/
structure NoveltyResult where
  new_items : List NewItem
  suppressed_known_topics : List SuppressedTopic
  stats : NoveltyStats
  candidate_embeddings : List (List ℚ)
deriving DecidableEq, Repr

/-- Embeds `core/news_novelty.py::_embedding_input`:
`normalize_text(f"{title}\n{content[:1000]}")`. -/
def embedding_input (article : Article) : String :=
  normalize_text (article.title ++ "\n" ++ article.content.take 1000)

/-- Model of Python `round(x, 4)` on rationals: round half to even at four
decimal places (floats aside, `round` uses banker's rounding; no claim
depends on the tie behaviour). -/
def pyRound4 (q : ℚ) : ℚ :=
  let scaled := q * 10000
  let f : ℤ := ⌊scaled⌋
  (if scaled - f = 1 / 2 then (if f % 2 = 0 then f else f + 1) else round scaled : ℤ) / 10000

/-- The `url_hash` computed per article in pass 1:
`hashlib.sha256(canonical_url.encode()).hexdigest() if canonical_url else ""`. -/
def articleUrlHash (article : Article) : String :=
  let canonical_url := canonicalize_url article.link
  if canonical_url ≠ "" then sha256_hex canonical_url else ""

/-- The `title_fp` computed per article in pass 1. -/
def articleTitleFp (article : Article) : String :=
  build_title_fingerprint article.title

/-- The `exact_duplicate_in_run` test of pass 1: hash or fingerprint (when
non-empty and the corresponding dedupe is enabled) already seen earlier in
this batch. -/
def exact_duplicate_in_run (cfg : NoveltyConfig)
    (seen_url_hashes seen_title_fingerprints : List String)
    (url_hash title_fp : String) : Bool :=
  (cfg.exact_url_dedupe && url_hash ≠ "" && url_hash ∈ seen_url_hashes) ||
  (cfg.exact_title_dedupe && title_fp ≠ "" && title_fp ∈ seen_title_fingerprints)

/-- Pass 1 of `core/news_novelty.py::filter_news_by_novelty` (the loop over
`raw_articles`): returns the `exact_dupes` count, the `suppressed_known_topics`
records with reason `exact_duplicate`, and the surviving candidates, given
the `seen_url_hashes` / `seen_title_fingerprints` sets accumulated so far
(modelled as lists; the source adds the — possibly empty — hash and
fingerprint of every survivor unconditionally, and membership tests are
guarded by non-emptiness). -/
def exactPass (stock_entries : List MemoryEntry) (cfg : NoveltyConfig) :
    List Article → List String → List String →
    ℕ × List SuppressedTopic × List Candidate
  | [], _, _ => (0, [], [])
  | article :: rest, seen_url_hashes, seen_title_fingerprints =>
    let url_hash := articleUrlHash article
    let title_fp := articleTitleFp article
    if exact_duplicate_in_run cfg seen_url_hashes seen_title_fingerprints url_hash title_fp ||
        is_exact_duplicate stock_entries url_hash title_fp
          cfg.exact_url_dedupe cfg.exact_title_dedupe then
      let r := exactPass stock_entries cfg rest seen_url_hashes seen_title_fingerprints
      (r.1 + 1,
        { title := article.title, link := article.link,
          reason := "exact_duplicate", similarity := none } :: r.2.1,
        r.2.2)
    else
      let r := exactPass stock_entries cfg rest
        (url_hash :: seen_url_hashes) (title_fp :: seen_title_fingerprints)
      (r.1, r.2.1,
        { article := article, canonical_url_hash := url_hash,
          title_fingerprint := title_fp } :: r.2.2)

/-- Python truthiness of the `_embed_texts` result (`if embeddings`):
`None` and the empty list are falsy. -/
def embeddingsTruthy : Option (List (List ℚ)) → Bool
  | some (_ :: _) => true
  | _ => false

/-- Python truthiness of one candidate embedding
(`if candidate_embedding`). -/
def embTruthy : Option (List ℚ) → Bool
  | some (_ :: _) => true
  | _ => false

/-- The best-score loop of the in-run semantic check: strict `>` over the
pool, starting from `best_score = 0.0`. -/
def runBestScore (candidate_embedding : List ℚ) :
    List (List ℚ) → ℚ → ℚ
  | [], best_score => best_score
  | emb :: rest, best_score =>
    let score := cosine_similarity candidate_embedding emb
    runBestScore candidate_embedding rest (if best_score < score then score else best_score)

/-- Pairs each pass-1 survivor with `embeddings[idx] if embeddings else
None`.  A provider vector list shorter than the candidate list would raise
`IndexError` in the source; it is modelled as an absent embedding (never
exercised: on success the provider returns one vector per input). -/
def attachEmbeddings (embeddings : Option (List (List ℚ)))
    (candidates : List Candidate) : List (Candidate × Option (List ℚ)) :=
  if embeddingsTruthy embeddings then
    candidates.enum.map (fun p => (p.2, (embeddings.getD []).get? p.1))
  else candidates.map (fun c => (c, none))

/-- The `semantic_match_memory` value of one pass-2 iteration:
`find_semantic_match(...) if embeddings else None`. -/
def semantic_match_memory (stock_entries : List MemoryEntry)
    (semantic_threshold : ℚ) (embsT : Bool)
    (candidate_embedding : Option (List ℚ)) : Option SemanticMatch :=
  if embsT then
    find_semantic_match stock_entries candidate_embedding semantic_threshold
  else none

/-- The `semantic_match_run` value of one pass-2 iteration: only computed
when the embeddings result, the candidate embedding and the
`new_item_embeddings` pool are all truthy; the best strict-`>` score over
`new_item_embeddings + known_semantic_embeddings` is returned when it
reaches the threshold. -/
def semantic_match_run (semantic_threshold : ℚ) (embsT : Bool)
    (candidate_embedding : Option (List ℚ))
    (new_item_embeddings known_semantic_embeddings : List (List ℚ)) : Option ℚ :=
  if embsT && embTruthy candidate_embedding && new_item_embeddings ≠ [] then
    let best_score :=
      runBestScore (candidate_embedding.getD [])
        (new_item_embeddings ++ known_semantic_embeddings) 0
    if semantic_threshold ≤ best_score then some best_score else none
  else none

/-- Pass 2 of `core/news_novelty.py::filter_news_by_novelty` (the loop over
`enumerate(candidates)`): given the truthiness of the whole embeddings
result (`embsT`), the candidates paired with their embeddings, and the
`new_item_embeddings` / `known_semantic_embeddings` pools accumulated so
far, returns the `semantic_dupes` count, the suppressed records with reason
`semantic_duplicate`, and `new_items`. -/
def pass2 (stock_entries : List MemoryEntry) (semantic_threshold : ℚ)
    (embsT : Bool) :
    List (Candidate × Option (List ℚ)) → List (List ℚ) → List (List ℚ) →
    ℕ × List SuppressedTopic × List NewItem
  | [], _, _ => (0, [], [])
  | (cand, candidate_embedding) :: rest,
      new_item_embeddings, known_semantic_embeddings =>
    let smm :=
      semantic_match_memory stock_entries semantic_threshold embsT candidate_embedding
    let smr :=
      semantic_match_run semantic_threshold embsT candidate_embedding
        new_item_embeddings known_semantic_embeddings
    if smm.isSome || smr.isSome then
      let match_score :=
        match smm with
        | some m => m.score
        | none => smr.getD 0
      let known' :=
        if embTruthy candidate_embedding then
          known_semantic_embeddings ++ [candidate_embedding.getD []]
        else known_semantic_embeddings
      let r := pass2 stock_entries semantic_threshold embsT rest
        new_item_embeddings known'
      (r.1 + 1,
        { title := cand.article.title, link := cand.article.link,
          reason := "semantic_duplicate",
          similarity := some (pyRound4 match_score) } :: r.2.1,
        r.2.2)
    else
      let item : NewItem :=
        { article := cand.article,
          canonical_url_hash := cand.canonical_url_hash,
          title_fingerprint := cand.title_fingerprint,
          novelty_embedding := candidate_embedding.getD [] }
      let new' :=
        if embTruthy candidate_embedding then
          new_item_embeddings ++ [candidate_embedding.getD []]
        else new_item_embeddings
      let r := pass2 stock_entries semantic_threshold embsT rest
        new' known_semantic_embeddings
      (r.1, r.2.1, item :: r.2.2)

/-- Embeds `core/news_novelty.py::filter_news_by_novelty`.  `provider`
models the awaited `_embed_texts` call: `none` is the caught-failure
outcome (`Embedding-Fehler, falle auf Exact-Dedupe zurück`), `some vs` a
successful response with one vector per input text.  `parse_iso` and `now`
model the time access of `entries_for_stock` as in `prune_memory`. -/
def filter_news_by_novelty (parse_iso : String → Option ℤ) (now : ℤ)
    (provider : List String → Option (List (List ℚ)))
    (stock_name : String) (raw_articles : List Article)
    (memory : Memory) (cfg : NoveltyConfig) : NoveltyResult :=
  let stock_entries :=
    entries_for_stock parse_iso now memory stock_name cfg.lookback_days
  let p1 := exactPass stock_entries cfg raw_articles [] []
  let exact_dupes := p1.1
  let suppressed1 := p1.2.1
  let candidates := p1.2.2
  if candidates = [] then
    { new_items := []
      suppressed_known_topics := suppressed1
      stats :=
        { fetched := raw_articles.length, exact_dupes := exact_dupes,
          semantic_dupes := 0, new_count := 0 }
      candidate_embeddings := [] }
  else
    let embed_inputs := candidates.map (fun c => embedding_input c.article)
    let embeddings := provider embed_inputs
    let p2 := pass2 stock_entries cfg.semantic_threshold
      (embeddingsTruthy embeddings) (attachEmbeddings embeddings candidates) [] []
    { new_items := p2.2.2
      suppressed_known_topics := suppressed1 ++ p2.2.1
      stats :=
        { fetched := raw_articles.length, exact_dupes := exact_dupes,
          semantic_dupes := p2.1, new_count := p2.2.2.length }
      candidate_embeddings := embeddings.getD [] }

/-- Maximal runs of alphanumeric characters (`acc` is the current run in
reverse).  This is the spec-side reading of "titles differing only in
case, punctuation or whitespace": their sequences of alphanumeric words
agree up to letter case. -/
def alnumRunsAux : List Char → List Char → List (List Char)
  | [], [] => []
  | [], acc => [acc.reverse]
  | c :: rest, acc =>
    if pyIsAlnum c then alnumRunsAux rest (c :: acc)
    else
      match acc with
      | [] => alnumRunsAux rest []
      | _ => acc.reverse :: alnumRunsAux rest []

/-- The case-folded sequence of alphanumeric words of a title: everything
that is not a letter or digit (punctuation, any whitespace) only separates
words, and letter case is folded away.  Two titles "differ only in letter
case, punctuation or amount/kind of whitespace" precisely when their
`specTitleWords` agree. -/
def specTitleWords (t : String) : List (List Char) :=
  (alnumRunsAux t.data []).map pyLowerList

/-- A pass-1 survivor turned into a `new_items` record with the empty
`_novelty_embedding` attached (the fail-open path when the embedding
provider fails). -/
def mkEmptyNewItem (c : Candidate) : NewItem :=
  { article := c.article
    canonical_url_hash := c.canonical_url_hash
    title_fingerprint := c.title_fingerprint
    novelty_embedding := [] }

/-!
Concrete scenario data used by the claim theorems below.
-/

/-- A `parse_iso` model in which every timestamp parses to time 0 (all
entries are recent relative to `now = 0`). -/
def parseAlways0 : String → Option ℤ := fun _ => some 0

/-- Memory entry for the in-batch semantic-duplicate scenario (claim C1):
one remembered story with topic embedding `[3, 4]`. -/
def semMemoryEntry : MemoryEntry :=
  { stock_name := "S", date_sent := "", canonical_url_hash := "h0",
    title_fingerprint := "f0", summary_fingerprint := "",
    topic_embedding := some [3, 4], summary_text := "", source := "",
    link := "http://m/0", title := "M0" }

/-- Memory for the claim C1 scenario. -/
def semMemory : Memory := { version := 1, entries := [semMemoryEntry] }

/-- First batch article of the claim C1 scenario; its embedding `[4, 3]`
has cosine similarity `24/25 = 0.96` with the memory entry's `[3, 4]`, so
it is rejected as a semantic duplicate of memory. -/
def semArticleA : Article :=
  { link := "http://a/1", title := "A1", content := "", source_name := "" }

/-- Second batch article of the claim C1 scenario; its embedding `[12, 5]`
has cosine similarity `56/65 < 0.9` with memory but `63/65 ≥ 0.9` with the
already-rejected first candidate. -/
def semArticleB : Article :=
  { link := "http://a/2", title := "B2", content := "", source_name := "" }

/-- Configuration with semantic threshold `0.9` for the claim C1
scenario. -/
def semCfg : NoveltyConfig :=
  { lookback_days := 14, semantic_threshold := 9 / 10,
    exact_url_dedupe := true, exact_title_dedupe := true }

/-- The provider response of the claim C1 scenario: embeddings `[4, 3]`
for the first candidate and `[12, 5]` for the second. -/
def semProvider : List String → Option (List (List ℚ)) :=
  fun _ => some [[4, 3], [12, 5]]

/-- The filter result of the claim C1 scenario. -/
def semResult : NoveltyResult :=
  filter_news_by_novelty parseAlways0 0 semProvider "S" [semArticleA, semArticleB]
    semMemory semCfg

/-- The day-1 Alphabet article of the exact-duplicate scenario (claim C3):
URL with a `utm_source` tracking parameter, title "Alphabet AI update". -/
def alphabetDay1 : Article :=
  { link := "https://news.example.com/alphabet-ai?utm_source=x"
    title := "Alphabet AI update"
    content := "Gemini update details"
    source_name := "Example" }

/-- The freshly fetched copy of the same article with a different tracking
parameter on the URL. -/
def alphabetDay2 : Article :=
  { link := "https://news.example.com/alphabet-ai?utm_campaign=y"
    title := "Alphabet AI update"
    content := "Fresh fetch of the same story"
    source_name := "Other" }

/-- Memory holding the day-1 Alphabet entry (hash and fingerprint built
from its URL and title by `build_memory_entry`). -/
def alphabetMemory : Memory :=
  { version := 1
    entries := [build_memory_entry "Alphabet" alphabetDay1
      "Alphabet shared AI updates." (some []) "2026-02-20T07:00:00"] }

/-- The documented default configuration (`lookback_days 14`,
`semantic_threshold 0.86`, both exact dedupes on). -/
def defaultCfg : NoveltyConfig :=
  { lookback_days := 14, semantic_threshold := 86 / 100,
    exact_url_dedupe := true, exact_title_dedupe := true }

set_option maxRecDepth 6000

/-!
Claim theorems.
-/

/-- Claim C5: `canonicalize_url` maps empty input to the empty string, and
on `https://www.example.com/news?id=1&utm_source=abc&fbclid=xyz&ref=foo` it
returns exactly `https://example.com/news?id=1` (tracking parameters
dropped, `www.` stripped, remaining query keys sorted). -/
theorem c5_canonicalize_concrete :
    canonicalize_url "" = "" ∧
    canonicalize_url "https://www.example.com/news?id=1&utm_source=abc&fbclid=xyz&ref=foo" =
      "https://example.com/news?id=1" := by
  exact ⟨by with_unfolding_all rfl, by with_unfolding_all rfl⟩

/-- Claim C4, counterexample: URL canonicalization is not idempotent.  The
netloc-cleaning step strips only one leading `www.`, so a host beginning
`www.www.` loses one `www.` per application and
`canonicalize_url (canonicalize_url u) ≠ canonicalize_url u` at
`u = "http://www.www.example.com/x"`. -/
theorem c4_counterexample :
    canonicalize_url "http://www.www.example.com/x" = "http://www.example.com/x" ∧
    canonicalize_url "http://www.example.com/x" = "http://example.com/x" ∧
    canonicalize_url (canonicalize_url "http://www.www.example.com/x") ≠
      canonicalize_url "http://www.www.example.com/x" := by
  refine ⟨by with_unfolding_all rfl, by with_unfolding_all rfl, ?_⟩
  exact of_decide_eq_true (by with_unfolding_all rfl)

/-- Claim C3: with a memory entry built from URL
`https://news.example.com/alphabet-ai?utm_source=x` and title
"Alphabet AI update", filtering a one-article batch containing the same
article with a different tracking parameter yields `exact_dupes = 1`,
`new_count = 0` and empty `new_items`, and the result does not depend on
the embedding provider at all (the filter returns before any embedding
request): the statement holds for every `provider`. -/
theorem c3_exact_duplicate_no_embedding (provider : List String → Option (List (List ℚ))) :
    (filter_news_by_novelty parseAlways0 0 provider "Alphabet" [alphabetDay2]
        alphabetMemory defaultCfg).stats.exact_dupes = 1 ∧
    (filter_news_by_novelty parseAlways0 0 provider "Alphabet" [alphabetDay2]
        alphabetMemory defaultCfg).stats.new_count = 0 ∧
    (filter_news_by_novelty parseAlways0 0 provider "Alphabet" [alphabetDay2]
        alphabetMemory defaultCfg).new_items = [] ∧
    (filter_news_by_novelty parseAlways0 0 provider "Alphabet" [alphabetDay2]
        alphabetMemory defaultCfg).candidate_embeddings = [] := by
  refine ⟨?_, ?_, ?_, ?_⟩ <;> with_unfolding_all rfl

/-- `ratSqrt 0 = 0` (used to discharge degenerate cases of C7). -/
theorem ratSqrt_zero : ratSqrt 0 = 0 := by with_unfolding_all rfl

/-- Claim C7: `cosine_similarity` is total: it returns exactly `0` whenever
either vector is empty or the lengths differ (and, being a function into
`ℚ`, never raises); when the lengths match and both norms are nonzero it
returns the normalised dot product; for the identical unit vectors
`[1, 0]` it returns `1`. -/
theorem c7_cosine_similarity_total :
    (∀ a b : List ℚ, a = [] ∨ b = [] ∨ a.length ≠ b.length →
      cosine_similarity a b = 0) ∧
    (∀ a b : List ℚ, a.length = b.length →
      ratSqrt ((a.map (fun x => x * x)).sum) ≠ 0 →
      ratSqrt ((b.map (fun x => x * x)).sum) ≠ 0 →
      cosine_similarity a b =
        (List.zipWith (fun x y => x * y) a b).sum /
          (ratSqrt ((a.map (fun x => x * x)).sum) *
            ratSqrt ((b.map (fun x => x * x)).sum))) ∧
    cosine_similarity [1, 0] [1, 0] = 1 := by
  refine ⟨?_, ?_, by with_unfolding_all rfl⟩
  · intro a b h
    simp only [cosine_similarity, if_pos h]
  · intro a b hlen ha hb
    have hA : a ≠ [] := by
      intro e
      apply ha
      rw [e]
      simpa using ratSqrt_zero
    have hB : b ≠ [] := by
      intro e
      apply hb
      rw [e]
      simpa using ratSqrt_zero
    have hcond : ¬(a = [] ∨ b = [] ∨ a.length ≠ b.length) := by
      push_neg
      exact ⟨hA, hB, hlen⟩
    have hnorm : ¬(ratSqrt ((a.map (fun x => x * x)).sum) = 0 ∨
        ratSqrt ((b.map (fun x => x * x)).sum) = 0) := by
      push_neg
      exact ⟨ha, hb⟩
    simp only [cosine_similarity, if_neg hcond, if_neg hnorm]

/-- Witness for C7: the theorem applied at `[] [1]` (mismatched vectors)
and at `[1, 0]`, `[3, 4]` (matching lengths, nonzero norms). -/
theorem c7_witness :
    cosine_similarity [] [1] = 0 ∧
    cosine_similarity [1, 0] [3, 4] =
      (List.zipWith (fun x y => x * y) [(1:ℚ), 0] [3, 4]).sum /
        (ratSqrt ((([(1:ℚ), 0]).map (fun x => x * x)).sum) *
          ratSqrt ((([(3:ℚ), 4]).map (fun x => x * x)).sum)) :=
  ⟨c7_cosine_similarity_total.1 [] [1] (Or.inl rfl),
   c7_cosine_similarity_total.2.1 [1, 0] [3, 4] rfl
     (of_decide_eq_true (by with_unfolding_all rfl))
     (of_decide_eq_true (by with_unfolding_all rfl))⟩

/-- Claim C1, counterexample.  Batch `[semArticleA, semArticleB]` with
embeddings `[4, 3]` and `[12, 5]`, memory embedding `[3, 4]`, threshold
`0.9`: the first candidate is suppressed against memory
(`24/25 ≥ 0.9`); the second candidate's best match among memory and the
batch is the already-rejected first candidate (`63/65 ≥ 0.9`, while its
memory score is only `56/65 < 0.9`), so by the claim it should also be
suppressed (`semantic_dupes = 2`, `new_count = 0`).  The code, however,
consults the rejected-duplicates pool only when at least one candidate
has already been accepted as new (`if embeddings and candidate_embedding
and new_item_embeddings:`), so the second candidate is accepted:
`semantic_dupes = 1`, `new_count = 1`, and `B2` appears in `new_items`. -/
theorem c1_counterexample :
    (9 : ℚ) / 10 ≤ cosine_similarity [12, 5] [4, 3] ∧
    cosine_similarity [12, 5] [3, 4] < 9 / 10 ∧
    (9 : ℚ) / 10 ≤ cosine_similarity [4, 3] [3, 4] ∧
    semResult.stats.semantic_dupes = 1 ∧
    semResult.stats.new_count = 1 ∧
    semResult.suppressed_known_topics.map (fun s => s.title) = ["A1"] ∧
    semResult.new_items.map (fun i => i.article.title) = ["B2"] := by
  refine ⟨?_, ?_, ?_, ?_, ?_, ?_, ?_⟩
  · exact of_decide_eq_true (by with_unfolding_all rfl)
  · exact of_decide_eq_true (by with_unfolding_all rfl)
  · exact of_decide_eq_true (by with_unfolding_all rfl)
  · with_unfolding_all rfl
  · with_unfolding_all rfl
  · with_unfolding_all rfl
  · with_unfolding_all rfl

/-- `Char.ofNat` round-trips on valid code points below the surrogate
range. -/
theorem charOfNat_toNat (n : ℕ) (h : n < 0xD800) : (Char.ofNat n).toNat = n := by
  have hv : Nat.isValidChar n := Or.inl h
  rw [Char.ofNat, dif_pos hv]
  simp [Char.ofNatAux, Char.toNat, UInt32.toNat]

/-- Arithmetic characterisation of `pyLowerChar`. -/
theorem pyLowerChar_toNat (c : Char) :
    (pyLowerChar c).toNat =
      if 65 ≤ c.toNat ∧ c.toNat ≤ 90 then c.toNat + 32 else c.toNat := by
  unfold pyLowerChar
  by_cases h : 65 ≤ c.toNat ∧ c.toNat ≤ 90
  · rw [if_pos (by simpa [decide_eq_true_iff] using h), if_pos h]
    exact charOfNat_toNat _ (by omega)
  · rw [if_neg, if_neg h]
    simp only [Bool.and_eq_true, decide_eq_true_iff]
    exact fun hc => h ⟨hc.1, hc.2⟩

/-- Lowercasing preserves alphanumeric-ness. -/
theorem pyIsAlnum_lower (c : Char) : pyIsAlnum (pyLowerChar c) = pyIsAlnum c := by
  simp only [pyIsAlnum, pyLowerChar_toNat]
  by_cases h : 65 ≤ c.toNat ∧ c.toNat ≤ 90
  · rw [if_pos h, Bool.eq_iff_iff]
    simp only [Bool.or_eq_true, Bool.and_eq_true, decide_eq_true_iff]
    omega
  · rw [if_neg h]

/-- Lowercasing preserves whitespace-ness. -/
theorem pyIsSpace_lower (c : Char) : pyIsSpace (pyLowerChar c) = pyIsSpace c := by
  simp only [pyIsSpace, pyLowerChar_toNat]
  by_cases h : 65 ≤ c.toNat ∧ c.toNat ≤ 90
  · rw [if_pos h, Bool.eq_iff_iff]
    simp only [Bool.or_eq_true, decide_eq_true_iff]
    omega
  · rw [if_neg h]

/-- Alphanumeric characters are not whitespace. -/
theorem not_space_of_alnum (c : Char) (h : pyIsAlnum c = true) : pyIsSpace c = false := by
  simp only [pyIsAlnum, Bool.or_eq_true, Bool.and_eq_true, decide_eq_true_iff] at h
  simp only [pyIsSpace, Bool.or_eq_false_iff, decide_eq_false_iff_not]
  omega

/-- The `normalize_text` pipeline (lowercase, punctuation to spaces,
whitespace split) produces exactly the lowercased maximal alphanumeric
runs of the input. -/
theorem splitWs_clean_eq_runs (l : List Char) : ∀ acc : List Char,
    pySplitWsAux ((pyLowerList l).map cleanChar) (pyLowerList acc) =
      (alnumRunsAux l acc).map pyLowerList := by
  induction l with
  | nil =>
    intro acc
    cases acc with
    | nil => rfl
    | cons a as =>
      simp [pySplitWsAux, alnumRunsAux, pyLowerList, List.map_reverse]
  | cons c rest ih =>
    intro acc
    by_cases hA : pyIsAlnum c = true
    · have h1 : pyIsAlnum (pyLowerChar c) = true := by rw [pyIsAlnum_lower]; exact hA
      have h2 : pyIsSpace (pyLowerChar c) = false := not_space_of_alnum _ h1
      have hclean : cleanChar (pyLowerChar c) = pyLowerChar c := by
        unfold cleanChar; rw [h1]; rfl
      simp only [pyLowerList, List.map_cons, hclean, pySplitWsAux, h2, alnumRunsAux, hA]
      simp only [if_true, Bool.false_eq_true, if_false]
      have := ih (c :: acc)
      simp only [pyLowerList, List.map_cons] at this
      exact this
    · have hA' : pyIsAlnum c = false := by simpa using hA
      have h1 : pyIsAlnum (pyLowerChar c) = false := by rw [pyIsAlnum_lower]; exact hA'
      have hsp : pyIsSpace (cleanChar (pyLowerChar c)) = true := by
        unfold cleanChar
        rw [h1, pyIsSpace_lower]
        by_cases hs : pyIsSpace c = true
        · simp [hs, pyIsSpace_lower]
        · simp [hs]
          simpa using (by decide : pyIsSpace ' ' = true)
      simp only [pyLowerList, List.map_cons, pySplitWsAux, hsp, alnumRunsAux, hA']
      simp only [Bool.false_eq_true, if_false]
      cases acc with
      | nil =>
        simpa [pyLowerList] using ih []
      | cons a as =>
        have := ih []
        simp only [pyLowerList, List.map_cons, List.map_nil] at this ⊢
        simp only [List.map_map] at this
        simp [List.map_reverse, List.map_map, this]

/-- `normalize_text` equals the space-join of the case-folded alphanumeric
words. -/
theorem normalize_text_eq_words (t : String) :
    normalize_text t = ⟨pyJoinSpace (specTitleWords t)⟩ := by
  unfold normalize_text specTitleWords
  by_cases h : t = ""
  · rw [if_pos h]
    subst h
    rfl
  · rw [if_neg h]
    show String.mk (pyJoinSpace (pySplitWs ((pyLowerList t.data).map cleanChar))) = _
    unfold pySplitWs
    have h2 := splitWs_clean_eq_runs t.data []
    rw [show pyLowerList ([] : List Char) = [] from rfl] at h2
    rw [h2]

/-- Claim C6: two titles that differ only in letter case, punctuation, or
amount/kind of whitespace — i.e. whose case-folded sequences of
alphanumeric words (`specTitleWords`) coincide — get identical title
fingerprints; in particular
`fingerprint "Microsoft beats Earnings!" = fingerprint "microsoft beats earnings"`. -/
theorem c6_fingerprint_invariance :
    (∀ t1 t2 : String, specTitleWords t1 = specTitleWords t2 →
      build_title_fingerprint t1 = build_title_fingerprint t2) ∧
    build_title_fingerprint "Microsoft beats Earnings!" =
      build_title_fingerprint "microsoft beats earnings" := by
  constructor
  · intro t1 t2 h
    unfold build_title_fingerprint
    rw [normalize_text_eq_words, normalize_text_eq_words, h]
  · with_unfolding_all rfl

/-- Witness for C6: the theorem applied at the concrete pair
`"Big-Tech: Earnings up 5%"` and `"big tech earnings UP 5"`, whose word
sequences agree. -/
theorem c6_witness :
    build_title_fingerprint "Big-Tech: Earnings up 5%" =
      build_title_fingerprint "big tech earnings UP 5" :=
  c6_fingerprint_invariance.1 _ _ (by with_unfolding_all rfl)

/-- The retrieval loop of `entries_for_stock` (positive lookback) is the
filter by stock name and by parsed-timestamp recency, keeping entries whose
timestamp does not parse. -/
theorem entries_loop_eq_filter (parse_iso : String → Option ℤ) (stock_name : String)
    (cutoff : ℤ) (l : List MemoryEntry) :
    entries_for_stock.loop parse_iso stock_name cutoff l =
      l.filter (fun e =>
        decide (e.stock_name = stock_name) &&
          (match parse_iso e.date_sent with
           | none => true
           | some sent_at => decide (cutoff ≤ sent_at))) := by
  induction l with
  | nil => rfl
  | cons e rest ih =>
    rw [entries_for_stock.loop]
    by_cases hs : e.stock_name = stock_name
    · rw [if_neg (by simpa using hs)]
      cases hp : parse_iso e.date_sent with
      | none =>
        simp [List.filter_cons, hs, hp, ih]
      | some t =>
        by_cases hc : cutoff ≤ t
        · simp [List.filter_cons, hs, hp, hc, ih]
        · simp [List.filter_cons, hs, hp, hc, ih]
    · rw [if_pos (by simpa using hs)]
      simp [List.filter_cons, hs, ih]

/-- Claim C8: `entries_for_stock` returns exactly the entries whose
`stock_name` matches and whose `date_sent` is within `lookback_days` of
now; `lookback_days ≤ 0` disables the time filter, and entries whose
timestamp does not parse are always kept (fail open). -/
theorem c8_entries_for_stock (parse_iso : String → Option ℤ) (now : ℤ)
    (memory : Memory) (stock_name : String) (lookback_days : ℤ) :
    entries_for_stock parse_iso now memory stock_name lookback_days =
      memory.entries.filter (fun e =>
        decide (e.stock_name = stock_name) &&
          (decide (lookback_days ≤ 0) ||
            match parse_iso e.date_sent with
            | none => true
            | some sent_at => decide (now - 86400 * lookback_days ≤ sent_at))) := by
  unfold entries_for_stock
  by_cases hd : lookback_days ≤ 0
  · rw [if_pos hd]
    apply List.filter_congr
    intro e _
    simp [hd]
  · rw [if_neg hd]
    rw [entries_loop_eq_filter]
    apply List.filter_congr
    intro e _
    simp [hd]

/-- Claim C9: `prune_memory` is a no-op (and logs nothing) when
`retention_days ≤ 0`; otherwise it keeps exactly the entries whose parsed
`date_sent` is not older than the cutoff, regardless of stock (unparseable
timestamps are kept), and the logged delta — modelled as the second
component — counts exactly the removed entries. -/
theorem c9_prune_memory (parse_iso : String → Option ℤ) (now : ℤ)
    (memory : Memory) (retention_days : ℤ) :
    (retention_days ≤ 0 → prune_memory parse_iso now memory retention_days = (memory, 0)) ∧
    (0 < retention_days →
      (prune_memory parse_iso now memory retention_days).1.entries =
        memory.entries.filter (fun e =>
          match parse_iso e.date_sent with
          | none => true
          | some sent_at => decide (now - 86400 * retention_days ≤ sent_at)) ∧
      (prune_memory parse_iso now memory retention_days).1.version = memory.version ∧
      (prune_memory parse_iso now memory retention_days).2 =
        memory.entries.countP (fun e =>
          match parse_iso e.date_sent with
          | none => false
          | some sent_at => decide (sent_at < now - 86400 * retention_days))) := by
  constructor
  · intro h
    unfold prune_memory
    rw [if_pos h]
  · intro h
    have hn : ¬ retention_days ≤ 0 := by omega
    unfold prune_memory
    rw [if_neg hn]
    refine ⟨rfl, rfl, ?_⟩
    show memory.entries.length -
        (memory.entries.filter (fun e =>
          match parse_iso e.date_sent with
          | none => true
          | some sent_at => decide (now - 86400 * retention_days ≤ sent_at))).length = _
    induction memory.entries with
    | nil => rfl
    | cons e rest ih =>
      have hle : (List.filter (fun e =>
          match parse_iso e.date_sent with
          | none => true
          | some sent_at => decide (now - 86400 * retention_days ≤ sent_at)) rest).length ≤
          rest.length := List.length_filter_le _ _
      cases hp : parse_iso e.date_sent with
      | none =>
        simp only [List.filter_cons, List.countP_cons, hp, List.length_cons,
          if_true, Bool.false_eq_true, if_false]
        omega
      | some t =>
        by_cases hc : now - 86400 * retention_days ≤ t
        · simp only [List.filter_cons, List.countP_cons, hp, List.length_cons,
            decide_eq_true_eq, if_pos hc]
          have hc2 : ¬ (t < now - 86400 * retention_days) := by omega
          simp only [decide_eq_true_eq, if_neg hc2]
          omega
        · simp only [List.filter_cons, List.countP_cons, hp, List.length_cons,
            decide_eq_true_eq, if_neg hc]
          have hc2 : t < now - 86400 * retention_days := by omega
          simp only [decide_eq_true_eq, if_pos hc2]
          omega

/-- Witness for C9: the theorem applied at `retention_days = 0` (no-op
branch, empty store) and `retention_days = 7` (one unparseable-dated entry,
which is kept). -/
theorem c9_witness :
    prune_memory parseAlways0 0 { version := 1, entries := [] } 0 =
      ({ version := 1, entries := [] }, 0) ∧
    (prune_memory (fun _ => none) 0 { version := 1, entries := [semMemoryEntry] } 7).1.entries =
      [semMemoryEntry].filter (fun e =>
        match (fun (_ : String) => (none : Option ℤ)) e.date_sent with
        | none => true
        | some sent_at => decide ((0:ℤ) - 86400 * 7 ≤ sent_at)) :=
  ⟨(c9_prune_memory parseAlways0 0 { version := 1, entries := [] } 0).1 (by norm_num),
   ((c9_prune_memory (fun _ => none) 0 { version := 1, entries := [semMemoryEntry] } 7).2
      (by norm_num)).1⟩

/-- Counts in pass 1: exact-dupe count plus survivor count equals the
input length, and each exact dupe contributes one suppressed record. -/
theorem exactPass_len (se : List MemoryEntry) (cfg : NoveltyConfig) :
    ∀ (l : List Article) (su st : List String),
    ((exactPass se cfg l su st).1 + (exactPass se cfg l su st).2.2.length = l.length) ∧
    ((exactPass se cfg l su st).2.1.length = (exactPass se cfg l su st).1) := by
  intro l
  induction l with
  | nil => intro su st; exact ⟨rfl, rfl⟩
  | cons a rest ih =>
    intro su st
    by_cases hdup : (exact_duplicate_in_run cfg su st (articleUrlHash a) (articleTitleFp a) ||
        is_exact_duplicate se (articleUrlHash a) (articleTitleFp a)
          cfg.exact_url_dedupe cfg.exact_title_dedupe) = true
    · have h := ih su st
      constructor
      · simp only [exactPass, hdup, if_true, List.length_cons]
        omega
      · simp only [exactPass, hdup, if_true, List.length_cons]
        omega
    · have hf : (exact_duplicate_in_run cfg su st (articleUrlHash a) (articleTitleFp a) ||
          is_exact_duplicate se (articleUrlHash a) (articleTitleFp a)
            cfg.exact_url_dedupe cfg.exact_title_dedupe) = false := by simpa using hdup
      have h := ih (articleUrlHash a :: su) (articleTitleFp a :: st)
      constructor
      · simp only [exactPass, hf, Bool.false_eq_true, if_false, List.length_cons]
        omega
      · simp only [exactPass, hf, Bool.false_eq_true, if_false, List.length_cons]
        omega

/-- Counts in pass 2: semantic-dupe count plus accepted count equals the
candidate count, and each semantic dupe contributes one suppressed
record. -/
theorem pass2_len (se : List MemoryEntry) (thr : ℚ) (b : Bool) :
    ∀ (l : List (Candidate × Option (List ℚ))) (ne ke : List (List ℚ)),
    ((pass2 se thr b l ne ke).1 + (pass2 se thr b l ne ke).2.2.length = l.length) ∧
    ((pass2 se thr b l ne ke).2.1.length = (pass2 se thr b l ne ke).1) := by
  intro l
  induction l with
  | nil => intro ne ke; exact ⟨rfl, rfl⟩
  | cons p rest ih =>
    intro ne ke
    obtain ⟨cand, ce⟩ := p
    by_cases hsem : ((semantic_match_memory se thr b ce).isSome ||
        (semantic_match_run thr b ce ne ke).isSome) = true
    · have h := ih ne (if embTruthy ce = true then ke ++ [ce.getD []] else ke)
      constructor
      · simp only [pass2, hsem, if_true, List.length_cons]
        omega
      · simp only [pass2, hsem, if_true, List.length_cons]
        omega
    · have hf : ((semantic_match_memory se thr b ce).isSome ||
          (semantic_match_run thr b ce ne ke).isSome) = false := by simpa using hsem
      have h := ih (if embTruthy ce = true then ne ++ [ce.getD []] else ne) ke
      constructor
      · simp only [pass2, hf, Bool.false_eq_true, if_false, List.length_cons]
        omega
      · simp only [pass2, hf, Bool.false_eq_true, if_false, List.length_cons]
        omega

/-- `attachEmbeddings` pairs every candidate with exactly one (possibly
absent) embedding. -/
theorem attachEmbeddings_len (e : Option (List (List ℚ))) (cs : List Candidate) :
    (attachEmbeddings e cs).length = cs.length := by
  unfold attachEmbeddings
  split
  · simp
  · simp

/-- Claim C10: the accounting invariant of `filter_news_by_novelty`: for
every memory, configuration and provider outcome,
`fetched = exact_dupes + semantic_dupes + new_count`,
`new_count = len new_items`, and every suppressed article accounts for
exactly one exact or semantic dupe
(`len suppressed_known_topics = exact_dupes + semantic_dupes`). -/
theorem c10_accounting (parse_iso : String → Option ℤ) (now : ℤ)
    (provider : List String → Option (List (List ℚ)))
    (stock_name : String) (raw_articles : List Article)
    (memory : Memory) (cfg : NoveltyConfig) :
    (filter_news_by_novelty parse_iso now provider stock_name raw_articles memory cfg).stats.fetched =
      (filter_news_by_novelty parse_iso now provider stock_name raw_articles memory cfg).stats.exact_dupes +
      (filter_news_by_novelty parse_iso now provider stock_name raw_articles memory cfg).stats.semantic_dupes +
      (filter_news_by_novelty parse_iso now provider stock_name raw_articles memory cfg).stats.new_count ∧
    (filter_news_by_novelty parse_iso now provider stock_name raw_articles memory cfg).stats.new_count =
      (filter_news_by_novelty parse_iso now provider stock_name raw_articles memory cfg).new_items.length ∧
    (filter_news_by_novelty parse_iso now provider stock_name raw_articles memory cfg).suppressed_known_topics.length =
      (filter_news_by_novelty parse_iso now provider stock_name raw_articles memory cfg).stats.exact_dupes +
      (filter_news_by_novelty parse_iso now provider stock_name raw_articles memory cfg).stats.semantic_dupes := by
  have hp1 := exactPass_len
    (entries_for_stock parse_iso now memory stock_name cfg.lookback_days) cfg
    raw_articles [] []
  by_cases hc :
      (exactPass (entries_for_stock parse_iso now memory stock_name cfg.lookback_days) cfg
        raw_articles [] []).2.2 = []
  · rw [hc] at hp1
    simp only [filter_news_by_novelty, hc, eq_self_iff_true, if_true, List.length_nil] at hp1 ⊢
    refine ⟨?_, trivial, ?_⟩
    · omega
    · omega
  · have hp2 := pass2_len
      (entries_for_stock parse_iso now memory stock_name cfg.lookback_days)
      cfg.semantic_threshold
      (embeddingsTruthy (provider ((exactPass (entries_for_stock parse_iso now memory stock_name cfg.lookback_days) cfg raw_articles [] []).2.2.map (fun c => embedding_input c.article))))
      (attachEmbeddings (provider ((exactPass (entries_for_stock parse_iso now memory stock_name cfg.lookback_days) cfg raw_articles [] []).2.2.map (fun c => embedding_input c.article)))
        (exactPass (entries_for_stock parse_iso now memory stock_name cfg.lookback_days) cfg raw_articles [] []).2.2)
      [] []
    have hal := attachEmbeddings_len
      (provider ((exactPass (entries_for_stock parse_iso now memory stock_name cfg.lookback_days) cfg raw_articles [] []).2.2.map (fun c => embedding_input c.article)))
      (exactPass (entries_for_stock parse_iso now memory stock_name cfg.lookback_days) cfg raw_articles [] []).2.2
    simp only [filter_news_by_novelty, hc, if_false, List.length_append] at hp2 hal ⊢
    refine ⟨?_, trivial, ?_⟩
    · omega
    · omega

/-- With a falsy embeddings result, pass 2 accepts every candidate with an
empty attached embedding and no semantic statistics. -/
theorem pass2_all_none (se : List MemoryEntry) (thr : ℚ) :
    ∀ (l : List Candidate) (ne ke : List (List ℚ)),
    pass2 se thr false (l.map (fun c => (c, none))) ne ke =
      (0, [], l.map mkEmptyNewItem) := by
  intro l
  induction l with
  | nil => intro ne ke; rfl
  | cons c rest ih =>
    intro ne ke
    simp only [List.map_cons, pass2, semantic_match_memory, semantic_match_run,
      Bool.false_and, Bool.false_eq_true, if_false, Option.isSome_none,
      Bool.or_self, embTruthy, ih, mkEmptyNewItem, Option.getD]

/-- Claim C2: when the embedding provider call fails totally (the caught
exception is modelled as `provider texts = none`), the filter falls back to
exact-only deduplication: `semantic_dupes = 0`, every pass-1 survivor is
returned in `new_items` (in order) with an empty `_novelty_embedding`, and
`candidate_embeddings` is empty.  The model is a total function, so no
exception reaches the caller. -/
theorem c2_embedding_fail_open (parse_iso : String → Option ℤ) (now : ℤ)
    (provider : List String → Option (List (List ℚ)))
    (stock_name : String) (raw_articles : List Article)
    (memory : Memory) (cfg : NoveltyConfig)
    (hfail : ∀ texts, provider texts = none) :
    (filter_news_by_novelty parse_iso now provider stock_name raw_articles memory cfg).stats.semantic_dupes = 0 ∧
    (filter_news_by_novelty parse_iso now provider stock_name raw_articles memory cfg).new_items =
      (exactPass (entries_for_stock parse_iso now memory stock_name cfg.lookback_days) cfg
        raw_articles [] []).2.2.map mkEmptyNewItem ∧
    (∀ item ∈ (filter_news_by_novelty parse_iso now provider stock_name raw_articles memory cfg).new_items,
      item.novelty_embedding = []) ∧
    (filter_news_by_novelty parse_iso now provider stock_name raw_articles memory cfg).candidate_embeddings = [] := by
  by_cases hc :
      (exactPass (entries_for_stock parse_iso now memory stock_name cfg.lookback_days) cfg
        raw_articles [] []).2.2 = []
  · simp only [filter_news_by_novelty, hc, eq_self_iff_true, if_true, List.map_nil]
    exact ⟨trivial, trivial, fun item h => absurd h (List.not_mem_nil _), trivial⟩
  · simp only [filter_news_by_novelty, hc, if_false, hfail]
    simp only [attachEmbeddings, embeddingsTruthy, Bool.false_eq_true, if_false,
      pass2_all_none, Option.getD]
    refine ⟨trivial, trivial, ?_, trivial⟩
    intro item h
    rw [List.mem_map] at h
    obtain ⟨c, _, hitem⟩ := h
    rw [← hitem]
    rfl

/-- Witness for C2: the theorem applied to the always-failing provider on a
concrete one-article batch. -/
theorem c2_witness :
    (filter_news_by_novelty parseAlways0 0 (fun _ => none) "S" [semArticleA]
        semMemory semCfg).stats.semantic_dupes = 0 ∧
    (filter_news_by_novelty parseAlways0 0 (fun _ => none) "S" [semArticleA]
        semMemory semCfg).candidate_embeddings = [] :=
  ⟨(c2_embedding_fail_open parseAlways0 0 (fun _ => none) "S" [semArticleA]
      semMemory semCfg (fun _ => rfl)).1,
   (c2_embedding_fail_open parseAlways0 0 (fun _ => none) "S" [semArticleA]
      semMemory semCfg (fun _ => rfl)).2.2.2⟩

/-- Claim C1, amended: in pass 2, a candidate with a truthy embedding is
suppressed as `semantic_duplicate` iff its best memory match reaches the
threshold, or — provided at least one candidate of this batch has already
been accepted as new (`new_item_embeddings` non-empty) — its best score
over the union of accepted-new and already-rejected embeddings reaches the
threshold.  In particular (third conjunct), when nothing has been accepted
yet, a candidate matching only already-rejected semantic duplicates is
accepted as new, not suppressed: the in-batch search is gated on
`new_item_embeddings`, not on the union. -/
theorem c1_pass2_characterisation (se : List MemoryEntry) (thr : ℚ)
    (cand : Candidate) (ce : Option (List ℚ)) (nePool kePool : List (List ℚ))
    (ht : embTruthy ce = true) :
    ((pass2 se thr true [(cand, ce)] nePool kePool).1 = 1 ↔
      (find_semantic_match se ce thr).isSome = true ∨
        (nePool ≠ [] ∧ thr ≤ runBestScore (ce.getD []) (nePool ++ kePool) 0)) ∧
    ((pass2 se thr true [(cand, ce)] nePool kePool).1 = 1 →
      (pass2 se thr true [(cand, ce)] nePool kePool).2.1.map (fun s => s.reason) =
        ["semantic_duplicate"]) ∧
    (nePool = [] → find_semantic_match se ce thr = none →
      (pass2 se thr true [(cand, ce)] nePool kePool).2.2 =
        [{ article := cand.article, canonical_url_hash := cand.canonical_url_hash,
           title_fingerprint := cand.title_fingerprint,
           novelty_embedding := ce.getD [] }]) := by
  have hsmm : semantic_match_memory se thr true ce = find_semantic_match se ce thr := by
    simp [semantic_match_memory]
  by_cases hm : (find_semantic_match se ce thr).isSome = true
  · have h1 : (pass2 se thr true [(cand, ce)] nePool kePool).1 = 1 := by
      simp only [pass2, hsmm, hm, Bool.true_or, if_true]
    have h2 : (pass2 se thr true [(cand, ce)] nePool kePool).2.1.map (fun s => s.reason) =
        ["semantic_duplicate"] := by
      simp only [pass2, hsmm, hm, Bool.true_or, if_true, List.map_cons, List.map_nil]
    refine ⟨?_, fun _ => h2, ?_⟩
    · rw [h1]
      simp [hm]
    · intro _ hnone
      rw [hnone] at hm
      simp at hm
  · have hmf : (find_semantic_match se ce thr).isSome = false := by simpa using hm
    by_cases hne : nePool = []
    · have hsmr : semantic_match_run thr true ce nePool kePool = none := by
        simp [semantic_match_run, hne]
      have h1 : (pass2 se thr true [(cand, ce)] nePool kePool).1 = 0 := by
        simp only [pass2, hsmm, hsmr, hmf, Option.isSome_none, Bool.or_false,
          Bool.false_eq_true, if_false]
      refine ⟨?_, ?_, ?_⟩
      · rw [h1]
        simp [hmf, hne]
      · intro h
        rw [h1] at h
        exact absurd h (by norm_num)
      · intro _ _
        simp only [pass2, hsmm, hsmr, hmf, Option.isSome_none, Bool.or_false,
          Bool.false_eq_true, if_false]
    · by_cases hth : thr ≤ runBestScore (ce.getD []) (nePool ++ kePool) 0
      · have hsmr : semantic_match_run thr true ce nePool kePool =
            some (runBestScore (ce.getD []) (nePool ++ kePool) 0) := by
          simp [semantic_match_run, hne, ht, hth]
        have h1 : (pass2 se thr true [(cand, ce)] nePool kePool).1 = 1 := by
          simp only [pass2, hsmm, hsmr, hmf, Option.isSome_some, Bool.or_true, if_true]
        have h2 : (pass2 se thr true [(cand, ce)] nePool kePool).2.1.map (fun s => s.reason) =
            ["semantic_duplicate"] := by
          simp only [pass2, hsmm, hsmr, hmf, Option.isSome_some, Bool.or_true, if_true,
            List.map_cons, List.map_nil]
        refine ⟨?_, fun _ => h2, ?_⟩
        · rw [h1]
          simp [hne, hth]
        · intro he
          exact absurd he hne
      · have hsmr : semantic_match_run thr true ce nePool kePool = none := by
          simp [semantic_match_run, hne, ht, hth]
        have h1 : (pass2 se thr true [(cand, ce)] nePool kePool).1 = 0 := by
          simp only [pass2, hsmm, hsmr, hmf, Option.isSome_none, Bool.or_false,
            Bool.false_eq_true, if_false]
        refine ⟨?_, ?_, ?_⟩
        · rw [h1]
          simp [hmf, hth]
        · intro h
          rw [h1] at h
          exact absurd h (by norm_num)
        · intro he
          exact absurd he hne

/-- Witness for C1 (amended): the characterisation applied at the concrete
counterexample state: memory `[3, 4]`, threshold `0.9`, candidate embedding
`[12, 5]`, empty accepted-new pool, rejected pool `[[4, 3]]` — the
candidate is accepted. -/
theorem c1_witness :
    (pass2 [semMemoryEntry] (9 / 10) true
        [((⟨semArticleB, "hB", "fB"⟩ : Candidate), some [12, 5])] [] [[4, 3]]).2.2 =
      [{ article := semArticleB, canonical_url_hash := "hB", title_fingerprint := "fB",
         novelty_embedding := [12, 5] }] :=
  (c1_pass2_characterisation [semMemoryEntry] (9 / 10)
    (⟨semArticleB, "hB", "fB"⟩ : Candidate) (some [12, 5]) [] [[4, 3]] rfl).2.2
    rfl (by with_unfolding_all rfl)

theorem char_eq_of_toNat (a b : Char) (h : a.toNat = b.toNat) : a = b :=
  Char.ext (UInt32.ext h)

theorem char_valid_or (c : Char) :
    c.toNat < 0xD800 ∨ 0xE000 ≤ c.toNat ∧ c.toNat < 0x110000 := c.valid

theorem charOfNat_toNat_valid (n : ℕ) (h : Nat.isValidChar n) :
    (Char.ofNat n).toNat = n := by
  rw [Char.ofNat, dif_pos h]
  simp [Char.ofNatAux, Char.toNat, UInt32.toNat]

theorem charOfNat_roundtrip (c : Char) : Char.ofNat c.toNat = c := by
  apply char_eq_of_toNat
  apply charOfNat_toNat_valid
  exact c.valid

theorem utf8Decode1_encode (c : Char) (rest : List ℕ) :
    ∃ b bs, utf8EncodeChar c = b :: bs ∧ utf8Decode1 b (bs ++ rest) = some (c, rest) := by
  have hv := char_valid_or c
  by_cases h1 : c.toNat < 0x80
  · refine ⟨c.toNat, [], ?_, ?_⟩
    · simp [utf8EncodeChar, h1]
    · simp only [List.nil_append, utf8Decode1, if_pos h1, charOfNat_roundtrip]
  · by_cases h2 : c.toNat < 0x800
    · refine ⟨0xC0 + c.toNat / 64, [0x80 + c.toNat % 64], ?_, ?_⟩
      · simp [utf8EncodeChar, h1, h2]
      · simp only [List.cons_append, List.nil_append, utf8Decode1]
        rw [if_neg (by omega)]
        rw [if_pos (by simp only [Bool.and_eq_true, decide_eq_true_eq]; omega)]
        rw [if_pos (by simp only [utf8Cont, Bool.and_eq_true, decide_eq_true_eq]; omega)]
        have hval : (0xC0 + c.toNat / 64 - 0xC0) * 64 + (0x80 + c.toNat % 64 - 0x80) =
            c.toNat := by omega
        rw [hval, charOfNat_roundtrip]
    · by_cases h3 : c.toNat < 0x10000
      · refine ⟨0xE0 + c.toNat / 4096,
          [0x80 + c.toNat / 64 % 64, 0x80 + c.toNat % 64], ?_, ?_⟩
        · simp [utf8EncodeChar, h1, h2, h3]
        · simp only [List.cons_append, List.nil_append, utf8Decode1]
          rw [if_neg (by omega)]
          rw [if_neg (by simp only [Bool.and_eq_true, decide_eq_true_eq]; omega)]
          rw [if_pos (by simp only [Bool.and_eq_true, decide_eq_true_eq]; omega)]
          rw [if_pos ?hcond3]
          case hcond3 =>
            simp only [utf8Cont, Bool.and_eq_true, Bool.or_eq_true, decide_eq_true_eq,
              ne_eq, Bool.not_eq_true', decide_eq_false_iff_not]
            omega
          have hval : (0xE0 + c.toNat / 4096 - 0xE0) * 4096 +
              (0x80 + c.toNat / 64 % 64 - 0x80) * 64 + (0x80 + c.toNat % 64 - 0x80) =
              c.toNat := by omega
          rw [hval, charOfNat_roundtrip]
      · have hup : c.toNat < 0x110000 := by
          rcases hv with hv | hv
          · omega
          · omega
        refine ⟨0xF0 + c.toNat / 262144,
          [0x80 + c.toNat / 4096 % 64, 0x80 + c.toNat / 64 % 64, 0x80 + c.toNat % 64], ?_, ?_⟩
        · simp [utf8EncodeChar, h1, h2, h3]
        · simp only [List.cons_append, List.nil_append, utf8Decode1]
          rw [if_neg (by omega)]
          rw [if_neg (by simp only [Bool.and_eq_true, decide_eq_true_eq]; omega)]
          rw [if_neg (by simp only [Bool.and_eq_true, decide_eq_true_eq]; omega)]
          rw [if_pos (by simp only [Bool.and_eq_true, decide_eq_true_eq]; omega)]
          rw [if_pos ?hcond4]
          case hcond4 =>
            simp only [utf8Cont, Bool.and_eq_true, Bool.or_eq_true, decide_eq_true_eq,
              ne_eq, Bool.not_eq_true', decide_eq_false_iff_not]
            omega
          have hval : (0xF0 + c.toNat / 262144 - 0xF0) * 262144 +
              (0x80 + c.toNat / 4096 % 64 - 0x80) * 4096 +
              (0x80 + c.toNat / 64 % 64 - 0x80) * 64 + (0x80 + c.toNat % 64 - 0x80) =
              c.toNat := by omega
          rw [hval, charOfNat_roundtrip]


theorem utf8Decode1_shrink (b : ℕ) (rest : List ℕ) (c : Char) (rest' : List ℕ)
    (h : utf8Decode1 b rest = some (c, rest')) : rest'.length ≤ rest.length := by
  unfold utf8Decode1 at h
  repeat' split at h
  all_goals try exact Option.noConfusion h
  all_goals injection h with h
  all_goals injection h with h1 h2
  all_goals subst h2
  all_goals simp_all [List.length_cons]
  all_goals omega

theorem utf8DecodeLoop_fuel : ∀ (f1 f2 : ℕ) (l : List ℕ),
    l.length ≤ f1 → l.length ≤ f2 → utf8DecodeLoop f1 l = utf8DecodeLoop f2 l := by
  intro f1
  induction f1 with
  | zero =>
    intro f2 l h1 _
    have : l = [] := by
      cases l with
      | nil => rfl
      | cons a as => simp at h1
    subst this
    cases f2 with
    | zero => rfl
    | succ g => rfl
  | succ g1 ih =>
    intro f2 l h1 h2
    cases l with
    | nil =>
      cases f2 with
      | zero => rfl
      | succ g => rfl
    | cons b rest =>
      cases f2 with
      | zero => simp at h2
      | succ g2 =>
        rw [utf8DecodeLoop, utf8DecodeLoop]
        cases hd : utf8Decode1 b rest with
        | none =>
          simp only [List.length_cons] at h1 h2
          show '�' :: utf8DecodeLoop g1 rest = '�' :: utf8DecodeLoop g2 rest
          rw [ih g2 rest (by omega) (by omega)]
        | some p =>
          obtain ⟨c, rest'⟩ := p
          have hs := utf8Decode1_shrink b rest c rest' hd
          simp only [List.length_cons] at h1 h2
          show c :: utf8DecodeLoop g1 rest' = c :: utf8DecodeLoop g2 rest'
          rw [ih g2 rest' (by omega) (by omega)]

theorem utf8_decode_encode (c : Char) (rest : List ℕ) :
    utf8DecodeReplace (utf8EncodeChar c ++ rest) = c :: utf8DecodeReplace rest := by
  obtain ⟨b, bs, henc, hdec⟩ := utf8Decode1_encode c rest
  unfold utf8DecodeReplace
  rw [henc, List.cons_append, List.length_cons]
  rw [utf8DecodeLoop, hdec]
  have hlen : rest.length ≤ (bs ++ rest).length := by
    simp [List.length_append]
  exact congrArg _ (utf8DecodeLoop_fuel _ _ rest hlen (le_refl _))

theorem utf8DecodeReplace_encodeAll (s : List Char) :
    utf8DecodeReplace ((s.map utf8EncodeChar).flatten) = s := by
  induction s with
  | nil => rfl
  | cons c cs ih =>
    simp only [List.map_cons, List.flatten_cons]
    rw [utf8_decode_encode, ih]


theorem charOfNat_byte_toNat (b : ℕ) (h : b < 256) : (Char.ofNat b).toNat = b :=
  charOfNat_toNat_valid _ (Or.inl (by omega))

theorem hexDigitVal_hexUpper (x : ℕ) (h : x < 16) : hexDigitVal (hexUpper x) = some x := by
  unfold hexUpper hexDigitVal
  by_cases hx : x < 10
  · rw [if_pos hx]
    have ht : (Char.ofNat (48 + x)).toNat = 48 + x := charOfNat_byte_toNat _ (by omega)
    rw [if_pos (by simp only [ht, Bool.and_eq_true, decide_eq_true_eq]; omega)]
    rw [ht]
    congr 1
    omega
  · rw [if_neg hx]
    have ht : (Char.ofNat (55 + x)).toNat = 55 + x := charOfNat_byte_toNat _ (by omega)
    rw [if_neg (by simp only [ht, Bool.and_eq_true, decide_eq_true_eq]; omega)]
    rw [if_neg (by simp only [ht, Bool.and_eq_true, decide_eq_true_eq]; omega)]
    rw [if_pos (by simp only [ht, Bool.and_eq_true, decide_eq_true_eq]; omega)]
    rw [ht]
    congr 1
    omega

theorem unquoteToks_cons_safe (c : Char) (l : List Char) (hne : c ≠ '%')
    (hlt : c.toNat < 0x80) :
    unquoteToks (c :: l) = UnquoteTok.byte c.toNat :: unquoteToks l := by
  cases l with
  | nil => simp [unquoteToks, hne, hlt]
  | cons c1 l1 =>
    cases l1 with
    | nil => simp [unquoteToks, hne, hlt]
    | cons c2 l2 => simp [unquoteToks, hne, hlt]

theorem unquoteToks_pct (b : ℕ) (hb : b < 256) (l : List Char) :
    unquoteToks (pctEncodeByte b ++ l) =
      UnquoteTok.byte b :: unquoteToks l := by
  show unquoteToks ('%' :: hexUpper (b / 16) :: hexUpper (b % 16) :: l) = _
  have h1 := hexDigitVal_hexUpper (b / 16) (by omega)
  have h2 := hexDigitVal_hexUpper (b % 16) (by omega)
  simp only [unquoteToks, h1, h2]
  have : b / 16 * 16 + b % 16 = b := by omega
  rw [this]

theorem unquoteToks_quoteBytes (safe : List ℕ) (h37 : ¬ 37 ∈ safe)
    (hlt : ∀ x ∈ safe, x < 0x80) :
    ∀ bytes : List ℕ, (∀ b ∈ bytes, b < 256) →
    unquoteToks (bytes.flatMap (fun b =>
      if alwaysSafeByte b || b ∈ safe then [Char.ofNat b] else pctEncodeByte b)) =
      bytes.map UnquoteTok.byte := by
  intro bytes
  induction bytes with
  | nil => intro _; rfl
  | cons b bs ih =>
    intro hball
    have hb : b < 256 := hball b (List.mem_cons_self b bs)
    have hbs : ∀ x ∈ bs, x < 256 := fun x hx => hball x (List.mem_cons_of_mem b hx)
    simp only [List.flatMap_cons]
    by_cases hsafe : (alwaysSafeByte b || decide (b ∈ safe)) = true
    · rw [if_pos hsafe]
      have hlt80 : b < 0x80 := by
        rcases Bool.or_eq_true _ _ |>.mp hsafe with h | h
        · simp only [alwaysSafeByte, Bool.or_eq_true, Bool.and_eq_true,
            decide_eq_true_eq] at h
          omega
        · exact hlt b (by simpa using h)
      have hne37 : b ≠ 37 := by
        intro he
        subst he
        rcases Bool.or_eq_true _ _ |>.mp hsafe with h | h
        · simp [alwaysSafeByte] at h
        · exact h37 (by simpa using h)
      have ht : (Char.ofNat b).toNat = b := charOfNat_byte_toNat b hb
      simp only [List.singleton_append]
      rw [unquoteToks_cons_safe (Char.ofNat b) _ ?hne (by omega)]
      case hne =>
        intro he
        apply hne37
        have := congrArg Char.toNat he
        rw [ht] at this
        simpa using this
      rw [ht, ih hbs, List.map_cons]
    · rw [if_neg hsafe]
      rw [unquoteToks_pct b hb, ih hbs, List.map_cons]

theorem unquoteFlush_bytes : ∀ (l acc : List ℕ),
    unquoteFlush (l.map UnquoteTok.byte) acc = utf8DecodeReplace (acc.reverse ++ l) := by
  intro l
  induction l with
  | nil =>
    intro acc
    simp [unquoteFlush]
  | cons b bs ih =>
    intro acc
    simp only [List.map_cons, unquoteFlush, ih]
    rw [List.reverse_cons, List.append_assoc]
    rfl

theorem utf8EncodeChar_bytes_lt (c : Char) : ∀ b ∈ utf8EncodeChar c, b < 256 := by
  have hv := char_valid_or c
  intro b hb
  simp only [utf8EncodeChar] at hb
  split at hb
  · simp only [List.mem_singleton] at hb
    omega
  · split at hb
    · simp only [List.mem_cons, List.mem_singleton, List.not_mem_nil, or_false] at hb
      rcases hb with hb | hb
      all_goals omega
    · split at hb
      · simp only [List.mem_cons, List.mem_singleton, List.not_mem_nil, or_false] at hb
        rcases hb with hb | hb | hb
        all_goals omega
      · simp only [List.mem_cons, List.mem_singleton, List.not_mem_nil, or_false] at hb
        rcases hb with hb | hb | hb | hb
        all_goals omega


theorem mem_flatten_encode_lt (s : List Char) :
    ∀ b ∈ (s.map utf8EncodeChar).flatten, b < 256 := by
  intro b hb
  rw [List.mem_flatten] at hb
  obtain ⟨l, hl, hbl⟩ := hb
  rw [List.mem_map] at hl
  obtain ⟨c, _, hc⟩ := hl
  rw [← hc] at hbl
  exact utf8EncodeChar_bytes_lt c b hbl

theorem quoteSafe_no_pct_eq (safe : List ℕ) (hlt : ∀ x ∈ safe, x < 0x80) :
    ∀ s : List Char, '%' ∉ pyQuoteSafe safe s → pyQuoteSafe safe s = s := by
  intro s
  induction s with
  | nil => intro _; rfl
  | cons c cs ih =>
    intro hnp
    have hsplit : pyQuoteSafe safe (c :: cs) =
        (utf8EncodeChar c).flatMap (fun b =>
          if alwaysSafeByte b || b ∈ safe then [Char.ofNat b] else pctEncodeByte b) ++
        pyQuoteSafe safe cs := by
      unfold pyQuoteSafe
      simp [List.flatMap_append]
    rw [hsplit] at hnp ⊢
    have hnp1 : '%' ∉ (utf8EncodeChar c).flatMap (fun b =>
        if alwaysSafeByte b || b ∈ safe then [Char.ofNat b] else pctEncodeByte b) := by
      intro hmem
      exact hnp (List.mem_append_left _ hmem)
    have hnp2 : '%' ∉ pyQuoteSafe safe cs := by
      intro hmem
      exact hnp (List.mem_append_right _ hmem)
    -- the head character must be a single safe byte
    have hv := char_valid_or c
    by_cases h80 : c.toNat < 0x80
    · have henc : utf8EncodeChar c = [c.toNat] := by simp [utf8EncodeChar, h80]
      rw [henc] at hnp1 ⊢
      by_cases hsafe : (alwaysSafeByte c.toNat || decide (c.toNat ∈ safe)) = true
      · simp only [List.flatMap_cons, List.flatMap_nil, List.append_nil, if_pos hsafe]
        rw [charOfNat_roundtrip, ih hnp2]
        rfl
      · exfalso
        apply hnp1
        simp only [List.flatMap_cons, List.flatMap_nil, List.append_nil, if_neg hsafe]
        simp [pctEncodeByte]
    · exfalso
      -- the lead byte of a multi-byte sequence is escaped
      apply hnp1
      have hlead : ∃ b0 bs, utf8EncodeChar c = b0 :: bs ∧ 0xC0 ≤ b0 := by
        by_cases h2 : c.toNat < 0x800
        · exact ⟨0xC0 + c.toNat / 64, [0x80 + c.toNat % 64],
            by simp [utf8EncodeChar, h80, h2], by omega⟩
        · by_cases h3 : c.toNat < 0x10000
          · exact ⟨0xE0 + c.toNat / 4096, [0x80 + c.toNat / 64 % 64, 0x80 + c.toNat % 64],
              by simp [utf8EncodeChar, h80, h2, h3], by omega⟩
          · exact ⟨0xF0 + c.toNat / 262144,
              [0x80 + c.toNat / 4096 % 64, 0x80 + c.toNat / 64 % 64, 0x80 + c.toNat % 64],
              by simp [utf8EncodeChar, h80, h2, h3], by omega⟩
      obtain ⟨b0, bs, henc, hge⟩ := hlead
      rw [henc]
      have hns : (alwaysSafeByte b0 || decide (b0 ∈ safe)) = false := by
        simp only [Bool.or_eq_false_iff, decide_eq_false_iff_not]
        constructor
        · simp only [alwaysSafeByte, Bool.or_eq_false_iff, Bool.and_eq_false_iff]
          simp only [decide_eq_false_iff_not]
          omega
        · intro hmem
          have := hlt b0 hmem
          omega
      rw [List.flatMap_cons]
      rw [if_neg (by rw [hns]; exact Bool.false_ne_true)]
      simp [pctEncodeByte]

theorem pyUnquote_quoteSafe (safe : List ℕ) (h37 : ¬ 37 ∈ safe)
    (hlt : ∀ x ∈ safe, x < 0x80) (s : List Char) :
    pyUnquote (pyQuoteSafe safe s) = s := by
  by_cases hp : '%' ∈ pyQuoteSafe safe s
  · unfold pyUnquote
    rw [if_pos hp]
    unfold pyQuoteSafe
    rw [unquoteToks_quoteBytes safe h37 hlt _ (mem_flatten_encode_lt s)]
    rw [unquoteFlush_bytes]
    simp only [List.reverse_nil, List.nil_append]
    exact utf8DecodeReplace_encodeAll s
  · unfold pyUnquote
    rw [if_neg hp]
    exact quoteSafe_no_pct_eq safe hlt s hp


theorem hexUpper_toNat (x : ℕ) (h : x < 16) :
    (hexUpper x).toNat = if x < 10 then 48 + x else 55 + x := by
  unfold hexUpper
  by_cases hx : x < 10
  · rw [if_pos hx, if_pos hx]
    exact charOfNat_byte_toNat _ (by omega)
  · rw [if_neg hx, if_neg hx]
    exact charOfNat_byte_toNat _ (by omega)

theorem mem_quoteSafe (safe : List ℕ) (s : List Char) (x : Char)
    (hx : x ∈ pyQuoteSafe safe s) :
    x = '%' ∨ (∃ n, n < 16 ∧ x = hexUpper n) ∨
      (∃ b, (alwaysSafeByte b || decide (b ∈ safe)) = true ∧ b < 256 ∧ x = Char.ofNat b) := by
  unfold pyQuoteSafe at hx
  rw [List.mem_flatMap] at hx
  obtain ⟨b, hbmem, hbx⟩ := hx
  have hb : b < 256 := mem_flatten_encode_lt s b hbmem
  by_cases hsafe : (alwaysSafeByte b || decide (b ∈ safe)) = true
  · rw [if_pos hsafe] at hbx
    simp only [List.mem_singleton] at hbx
    right
    right
    exact ⟨b, hsafe, hb, hbx⟩
  · rw [if_neg hsafe] at hbx
    simp only [pctEncodeByte, List.mem_cons, List.mem_singleton, List.not_mem_nil,
      or_false] at hbx
    rcases hbx with hbx | hbx | hbx
    · left
      exact hbx
    · right
      left
      exact ⟨b / 16, by omega, hbx⟩
    · right
      left
      exact ⟨b % 16, by omega, hbx⟩

theorem plus_not_mem_quoteSafe (safe : List ℕ) (h43 : ¬ 43 ∈ safe) (s : List Char) :
    '+' ∉ pyQuoteSafe safe s := by
  intro hmem
  rcases mem_quoteSafe safe s '+' hmem with h | ⟨n, hn, h⟩ | ⟨b, hcond, hb, h⟩
  · exact absurd h (by decide)
  · have := congrArg Char.toNat h
    rw [hexUpper_toNat n hn] at this
    have h43' : ('+').toNat = 43 := rfl
    rw [h43'] at this
    split at this
    all_goals omega
  · have := congrArg Char.toNat h
    rw [charOfNat_byte_toNat b hb] at this
    have h43' : ('+').toNat = 43 := rfl
    rw [h43'] at this
    subst this
    rcases Bool.or_eq_true _ _ |>.mp hcond with hc | hc
    · simp [alwaysSafeByte] at hc
    · exact h43 (by simpa using hc)

theorem pyUnquotePlus_quotePlus (s : List Char) :
    pyUnquotePlus (pyQuotePlus s) = s := by
  unfold pyQuotePlus
  by_cases hsp : ' ' ∈ s
  · rw [if_pos hsp]
    unfold pyUnquotePlus
    have hplus : '+' ∉ pyQuoteSafe [32] s :=
      plus_not_mem_quoteSafe [32] (by norm_num) s
    have hmapmap : ((pyQuoteSafe [32] s).map (fun c => if c = ' ' then '+' else c)).map
        (fun c => if c = '+' then ' ' else c) = pyQuoteSafe [32] s := by
      rw [List.map_map]
      have : ∀ c ∈ pyQuoteSafe [32] s,
          ((fun c => if c = '+' then ' ' else c) ∘ (fun c => if c = ' ' then '+' else c)) c = c := by
        intro c hc
        simp only [Function.comp]
        by_cases hcs : c = ' '
        · rw [if_pos hcs, if_pos rfl, hcs]
        · rw [if_neg hcs]
          by_cases hcp : c = '+'
          · exact absurd (hcp ▸ hc) hplus
          · rw [if_neg hcp]
      rw [List.map_congr_left this]
      simp
    rw [hmapmap]
    exact pyUnquote_quoteSafe [32] (by norm_num) (by intro x hx; simp at hx; omega) s
  · rw [if_neg hsp]
    unfold pyUnquotePlus
    have hplus : '+' ∉ pyQuoteSafe [] s :=
      plus_not_mem_quoteSafe [] (by simp) s
    have hmap : (pyQuoteSafe [] s).map (fun c => if c = '+' then ' ' else c) =
        pyQuoteSafe [] s := by
      have : ∀ c ∈ pyQuoteSafe [] s, (fun c => if c = '+' then ' ' else c) c = c := by
        intro c hc
        simp only
        by_cases hcp : c = '+'
        · exact absurd (hcp ▸ hc) hplus
        · rw [if_neg hcp]
      rw [List.map_congr_left this]
      simp
    rw [hmap]
    exact pyUnquote_quoteSafe [] (by simp) (by simp) s


theorem mem_quotePlus (s : List Char) (x : Char) (hx : x ∈ pyQuotePlus s) :
    x = '+' ∨ x = '%' ∨ (∃ n, n < 16 ∧ x = hexUpper n) ∨
      ∃ b, b < 256 ∧ (alwaysSafeByte b = true ∨ b = 32) ∧ x = Char.ofNat b := by
  unfold pyQuotePlus at hx
  split at hx
  · rw [List.mem_map] at hx
    obtain ⟨c, hc, hmap⟩ := hx
    by_cases hcs : c = ' '
    · rw [hcs] at hmap
      simp only [if_pos rfl] at hmap
      left
      exact hmap.symm
    · rw [if_neg hcs] at hmap
      subst hmap
      rcases mem_quoteSafe [32] s c hc with h | ⟨n, hn, h⟩ | ⟨b, hcond, hb, h⟩
      · right
        left
        exact h
      · right
        right
        left
        exact ⟨n, hn, h⟩
      · right
        right
        right
        refine ⟨b, hb, ?_, h⟩
        rcases Bool.or_eq_true _ _ |>.mp hcond with hcv | hcv
        · exact Or.inl hcv
        · right
          simpa using hcv
  · rcases mem_quoteSafe [] s x hx with h | ⟨n, hn, h⟩ | ⟨b, hcond, hb, h⟩
    · right
      left
      exact h
    · right
      right
      left
      exact ⟨n, hn, h⟩
    · right
      right
      right
      refine ⟨b, hb, ?_, h⟩
      rcases Bool.or_eq_true _ _ |>.mp hcond with hcv | hcv
      · exact Or.inl hcv
      · simp at hcv

theorem not_mem_quotePlus_of_toNat (s : List Char) (x : Char)
    (hplus : x.toNat ≠ 43) (hpct : x.toNat ≠ 37) (hsp : x.toNat ≠ 32)
    (hhex : x.toNat < 48 ∨ (57 < x.toNat ∧ x.toNat < 65) ∨ 70 < x.toNat)
    (hsafe : alwaysSafeByte x.toNat = false) : x ∉ pyQuotePlus s := by
  intro hmem
  rcases mem_quotePlus s x hmem with h | h | ⟨n, hn, h⟩ | ⟨b, hb, hcond, h⟩
  · exact hplus (by rw [h]; rfl)
  · exact hpct (by rw [h]; rfl)
  · have := congrArg Char.toNat h
    rw [hexUpper_toNat n hn] at this
    split at this
    · omega
    · omega
  · have := congrArg Char.toNat h
    rw [charOfNat_byte_toNat b hb] at this
    subst this
    rcases hcond with hcv | hcv
    · rw [hcv] at hsafe
      exact absurd hsafe (by simp)
    · exact hsp hcv

theorem amp_not_mem_quotePlus (s : List Char) : '&' ∉ pyQuotePlus s :=
  not_mem_quotePlus_of_toNat s '&' (by decide) (by decide) (by decide)
    (by decide) (by decide)

theorem eq_not_mem_quotePlus (s : List Char) : '=' ∉ pyQuotePlus s :=
  not_mem_quotePlus_of_toNat s '=' (by decide) (by decide) (by decide)
    (by decide) (by decide)

theorem splitAtChar_append_sep (sep : Char) (a b : List Char) (ha : sep ∉ a) :
    splitAtChar sep (a ++ sep :: b) = some (a, b) := by
  induction a with
  | nil => simp [splitAtChar]
  | cons x xs ih =>
    simp only [List.mem_cons, not_or] at ha
    obtain ⟨hx, hxs⟩ := ha
    simp only [List.cons_append, splitAtChar, List.append_eq]
    rw [if_neg (fun h => hx h.symm), ih hxs]

theorem pySplitSepAux_free (sep : Char) :
    ∀ (part l acc : List Char), sep ∉ part →
      pySplitSepAux sep (part ++ l) acc = pySplitSepAux sep l (part.reverse ++ acc) := by
  intro part
  induction part with
  | nil => intro l acc _; simp
  | cons x xs ih =>
    intro l acc hpart
    simp only [List.mem_cons, not_or] at hpart
    obtain ⟨hx, hxs⟩ := hpart
    simp only [List.cons_append, pySplitSepAux, List.append_eq]
    rw [if_neg (fun h => hx h.symm), ih l (x :: acc) hxs]
    simp

theorem pySplitSepAux_join (sep : Char) :
    ∀ (ps : List (List Char)) (acc : List Char), (∀ q ∈ ps, sep ∉ q) →
      pySplitSepAux sep ((ps.map (fun x => sep :: x)).flatten) acc =
        acc.reverse :: ps := by
  intro ps
  induction ps with
  | nil => intro acc _; simp [pySplitSepAux]
  | cons q qs ih =>
    intro acc hfree
    simp only [List.map_cons, List.flatten_cons, List.cons_append, pySplitSepAux,
      List.append_eq, eq_self_iff_true, if_true]
    have hq : sep ∉ q := hfree q (List.mem_cons_self q qs)
    rw [pySplitSepAux_free sep q _ [] hq, List.append_nil]
    rw [ih q.reverse (fun r hr => hfree r (List.mem_cons_of_mem q hr))]
    simp

theorem pySplitSep_join (sep : Char) (p : List Char) (ps : List (List Char))
    (hp : sep ∉ p) (hps : ∀ q ∈ ps, sep ∉ q) :
    pySplitSep sep (p ++ (ps.map (fun x => sep :: x)).flatten) = p :: ps := by
  unfold pySplitSep
  rw [pySplitSepAux_free sep p _ [] hp, pySplitSepAux_join sep ps _ hps]
  simp


theorem encPair_ne_nil (kv : List Char × List Char) :
    pyQuotePlus kv.1 ++ '=' :: pyQuotePlus kv.2 ≠ [] := by
  cases h : pyQuotePlus kv.1 <;> simp

theorem amp_not_mem_encPair (kv : List Char × List Char) :
    '&' ∉ pyQuotePlus kv.1 ++ '=' :: pyQuotePlus kv.2 := by
  simp only [List.mem_append, List.mem_cons, not_or]
  exact ⟨amp_not_mem_quotePlus kv.1, by decide, amp_not_mem_quotePlus kv.2⟩

theorem parseQsl_fold (l : List (List Char × List Char)) :
    (l.map (fun kv => pyQuotePlus kv.1 ++ '=' :: pyQuotePlus kv.2)).foldr
      (fun name_value r =>
        if name_value = [] then r
        else
          match splitAtChar '=' name_value with
          | some (n, v) => (pyUnquotePlus n, pyUnquotePlus v) :: r
          | none => (pyUnquotePlus name_value, pyUnquotePlus []) :: r) [] = l := by
  induction l with
  | nil => rfl
  | cons kv rest ih =>
    simp only [List.map_cons, List.foldr_cons, ih]
    rw [if_neg (encPair_ne_nil kv)]
    rw [splitAtChar_append_sep '=' _ _ (eq_not_mem_quotePlus kv.1)]
    show (pyUnquotePlus (pyQuotePlus kv.1), pyUnquotePlus (pyQuotePlus kv.2)) :: rest =
      kv :: rest
    rw [pyUnquotePlus_quotePlus, pyUnquotePlus_quotePlus]

theorem parse_qsl_urlencode (l : List (List Char × List Char)) :
    pyParseQsl (pyUrlencode l) = l := by
  cases l with
  | nil => rfl
  | cons kv rest =>
    have hurl : pyUrlencode (kv :: rest) =
        (pyQuotePlus kv.1 ++ '=' :: pyQuotePlus kv.2) ++
          ((rest.map (fun kv2 => pyQuotePlus kv2.1 ++ '=' :: pyQuotePlus kv2.2)).map
            (fun x => '&' :: x)).flatten := rfl
    have hne : pyUrlencode (kv :: rest) ≠ [] := by
      rw [hurl]
      intro h
      have := congrArg List.length h
      simp at this
    unfold pyParseQsl
    rw [if_neg hne, hurl]
    rw [pySplitSep_join '&' _ _ (amp_not_mem_encPair kv)
      (by
        intro q hq
        rw [List.mem_map] at hq
        obtain ⟨kv2, _, hq⟩ := hq
        exact hq ▸ amp_not_mem_encPair kv2)]
    have := parseQsl_fold (kv :: rest)
    simpa only [List.map_cons] using this

theorem char_lt_iff (a b : Char) : (a < b) ↔ a.toNat < b.toNat := Iff.rfl

theorem listCharLt_asymm : ∀ a b : List Char,
    listCharLt a b = true → listCharLt b a = false := by
  intro a
  induction a with
  | nil =>
    intro b h
    cases b with
    | nil => simp [listCharLt] at h
    | cons y ys => simp [listCharLt]
  | cons x xs ih =>
    intro b h
    cases b with
    | nil => simp [listCharLt] at h
    | cons y ys =>
      simp only [listCharLt] at h ⊢
      by_cases hxy : x < y
      · rw [if_neg, if_pos hxy]
        rw [char_lt_iff] at hxy ⊢
        omega
      · rw [if_neg hxy] at h
        by_cases hyx : y < x
        · rw [if_pos hyx] at h
          exact absurd h (by norm_num)
        · rw [if_neg hyx] at h
          rw [if_neg hyx, if_neg hxy]
          exact ih ys h

theorem listCharLt_conn : ∀ a b : List Char,
    listCharLt a b = false → listCharLt b a = false → a = b := by
  intro a
  induction a with
  | nil =>
    intro b h _
    cases b with
    | nil => rfl
    | cons y ys => simp [listCharLt] at h
  | cons x xs ih =>
    intro b h1 h2
    cases b with
    | nil => simp [listCharLt] at h2
    | cons y ys =>
      simp only [listCharLt] at h1 h2
      by_cases hxy : x < y
      · rw [if_pos hxy] at h1
        exact absurd h1 (by norm_num)
      · by_cases hyx : y < x
        · rw [if_pos hyx] at h2
          exact absurd h2 (by norm_num)
        · rw [if_neg hxy, if_neg hyx] at h1
          have hx : x = y := by
            apply char_eq_of_toNat
            rw [char_lt_iff] at hxy hyx
            omega
          rw [if_neg hyx, if_neg hxy] at h2
          rw [hx, ih ys h1 h2]

theorem listCharLt_trans : ∀ a b c : List Char,
    listCharLt a b = true → listCharLt b c = true → listCharLt a c = true := by
  intro a
  induction a with
  | nil =>
    intro b c hab hbc
    cases c with
    | nil =>
      cases b with
      | nil => simp [listCharLt] at hab
      | cons y ys => simp [listCharLt] at hbc
    | cons z zs => simp [listCharLt]
  | cons x xs ih =>
    intro b c hab hbc
    cases b with
    | nil => simp [listCharLt] at hab
    | cons y ys =>
      cases c with
      | nil => simp [listCharLt] at hbc
      | cons z zs =>
        simp only [listCharLt] at hab hbc ⊢
        by_cases hxy : x < y <;> by_cases hyz : y < z
        · rw [if_pos (by rw [char_lt_iff] at hxy hyz ⊢; omega)]
        · rw [if_neg hyz] at hbc
          by_cases hzy : z < y
          · rw [if_pos hzy] at hbc
            exact absurd hbc (by norm_num)
          · have : y = z := by
              apply char_eq_of_toNat
              rw [char_lt_iff] at hyz hzy
              omega
            subst this
            rw [if_pos hxy]
        · rw [if_neg hxy] at hab
          by_cases hyx : y < x
          · rw [if_pos hyx] at hab
            exact absurd hab (by norm_num)
          · have : x = y := by
              apply char_eq_of_toNat
              rw [char_lt_iff] at hxy hyx
              omega
            subst this
            rw [if_pos hyz]
        · rw [if_neg hxy] at hab
          rw [if_neg hyz] at hbc
          by_cases hyx : y < x
          · rw [if_pos hyx] at hab
            exact absurd hab (by norm_num)
          · by_cases hzy : z < y
            · rw [if_pos hzy] at hbc
              exact absurd hbc (by norm_num)
            · rw [if_neg hyx] at hab
              rw [if_neg hzy] at hbc
              have hxz : ¬ x < z := by
                rw [char_lt_iff] at hxy hyx hyz hzy ⊢
                omega
              have hzx : ¬ z < x := by
                rw [char_lt_iff] at hxy hyx hyz hzy ⊢
                omega
              rw [if_neg hxz, if_neg hzx]
              exact ih ys zs hab hbc


theorem mem_insertByKey (x z : List Char × List Char) :
    ∀ l, z ∈ insertByKey x l ↔ z = x ∨ z ∈ l := by
  intro l
  induction l with
  | nil => simp [insertByKey]
  | cons y ys ih =>
    simp only [insertByKey]
    split
    · simp only [List.mem_cons, ih]
      tauto
    · simp only [List.mem_cons]

theorem pairwise_insertByKey (x : List Char × List Char) :
    ∀ l, l.Pairwise (fun a b => listCharLt b.1 a.1 = false) →
      (insertByKey x l).Pairwise (fun a b => listCharLt b.1 a.1 = false) := by
  intro l
  induction l with
  | nil => intro _; simp [insertByKey]
  | cons y ys ih =>
    intro h
    rw [List.pairwise_cons] at h
    simp only [insertByKey]
    split
    · rename_i hlt
      rw [List.pairwise_cons]
      constructor
      · intro z hz
        rw [mem_insertByKey] at hz
        rcases hz with hz | hz
        · rw [hz]
          exact listCharLt_asymm _ _ hlt
        · exact h.1 z hz
      · exact ih h.2
    · rename_i hnlt
      rw [List.pairwise_cons]
      constructor
      · intro z hz
        rw [List.mem_cons] at hz
        rcases hz with hz | hz
        · rw [hz]
          simpa using hnlt
        · -- z in ys: from R y z and lt y.1 x.1 = false conclude lt z.1 x.1 = false
          have hyz := h.1 z hz
          have hyx : listCharLt y.1 x.1 = false := by simpa using hnlt
          by_cases hzx : listCharLt z.1 x.1 = true
          · exfalso
            by_cases hyz2 : listCharLt y.1 z.1 = true
            · have := listCharLt_trans _ _ _ hyz2 hzx
              rw [this] at hyx
              exact absurd hyx (by norm_num)
            · have heq := listCharLt_conn y.1 z.1 (by simpa using hyz2) hyz
              rw [heq] at hyx
              rw [hzx] at hyx
              exact absurd hyx (by norm_num)
          · simpa using hzx
      · rw [List.pairwise_cons]
        exact ⟨h.1, h.2⟩

theorem pairwise_sortByKey (l : List (List Char × List Char)) :
    (pySortByKey l).Pairwise (fun a b => listCharLt b.1 a.1 = false) := by
  induction l with
  | nil => simp [pySortByKey]
  | cons x xs ih =>
    show (insertByKey x (pySortByKey xs)).Pairwise _
    exact pairwise_insertByKey x _ ih

theorem mem_sortByKey (z : List Char × List Char) :
    ∀ l, z ∈ pySortByKey l ↔ z ∈ l := by
  intro l
  induction l with
  | nil => simp [pySortByKey]
  | cons x xs ih =>
    show z ∈ insertByKey x (pySortByKey xs) ↔ _
    rw [mem_insertByKey, ih]
    simp [eq_comm]

theorem sortByKey_of_pairwise :
    ∀ l : List (List Char × List Char),
      l.Pairwise (fun a b => listCharLt b.1 a.1 = false) → pySortByKey l = l := by
  intro l
  induction l with
  | nil => intro _; rfl
  | cons a rest ih =>
    intro h
    rw [List.pairwise_cons] at h
    show insertByKey a (pySortByKey rest) = a :: rest
    rw [ih h.2]
    cases rest with
    | nil => rfl
    | cons b bs =>
      simp only [insertByKey]
      rw [if_neg (by rw [h.1 b (List.mem_cons_self b bs)]; norm_num)]

theorem sortByKey_idem (l : List (List Char × List Char)) :
    pySortByKey (pySortByKey l) = pySortByKey l :=
  sortByKey_of_pairwise _ (pairwise_sortByKey l)



theorem pyLowerChar_idem (c : Char) : pyLowerChar (pyLowerChar c) = pyLowerChar c := by
  apply char_eq_of_toNat
  simp only [pyLowerChar_toNat]
  split_ifs <;> omega

theorem pyLowerList_idem (l : List Char) :
    pyLowerList (pyLowerList l) = pyLowerList l := by
  unfold pyLowerList
  rw [List.map_map]
  exact List.map_congr_left (fun c _ => pyLowerChar_idem c)

theorem pyLowerList_drop (l : List Char) (n : ℕ) :
    pyLowerList (l.drop n) = (pyLowerList l).drop n := by
  unfold pyLowerList
  rw [List.map_drop]

theorem filter_sortByKey_filter (l : List (List Char × List Char))
    (pr : List Char × List Char → Bool) :
    (pySortByKey (l.filter pr)).filter pr = pySortByKey (l.filter pr) := by
  apply List.filter_eq_self.mpr
  intro z hz
  rw [mem_sortByKey] at hz
  exact List.of_mem_filter hz

theorem canonicalClean_idem (p : ParseResultL)
    (hw : ¬ (canonicalClean p).netloc.take 4 = ['w', 'w', 'w', '.']) :
    canonicalClean (canonicalClean p) = canonicalClean p := by
  have hsch : pyLowerList (canonicalClean p).scheme = (canonicalClean p).scheme := by
    show pyLowerList (pyLowerList p.scheme) = pyLowerList p.scheme
    exact pyLowerList_idem _
  have hnl : pyLowerList (canonicalClean p).netloc = (canonicalClean p).netloc := by
    show pyLowerList (if (pyLowerList p.netloc).take 4 = ['w', 'w', 'w', '.']
        then (pyLowerList p.netloc).drop 4 else pyLowerList p.netloc) =
      (if (pyLowerList p.netloc).take 4 = ['w', 'w', 'w', '.']
        then (pyLowerList p.netloc).drop 4 else pyLowerList p.netloc)
    split
    · rw [pyLowerList_drop, pyLowerList_idem]
    · exact pyLowerList_idem _
  have hqq : pyParseQsl (canonicalClean p).query =
      pySortByKey ((pyParseQsl p.query).filter
        (fun kv => !(pyLowerList kv.1 ∈ trackingParams))) := by
    show pyParseQsl (pyUrlencode _) = _
    exact parse_qsl_urlencode _
  show ParseResultL.mk
      (pyLowerList (canonicalClean p).scheme)
      (if (pyLowerList (canonicalClean p).netloc).take 4 = ['w', 'w', 'w', '.']
        then (pyLowerList (canonicalClean p).netloc).drop 4
        else pyLowerList (canonicalClean p).netloc)
      (canonicalClean p).path (canonicalClean p).params
      (pyUrlencode (pySortByKey ((pyParseQsl (canonicalClean p).query).filter
        (fun kv => !(pyLowerList kv.1 ∈ trackingParams)))))
      [] = canonicalClean p
  rw [hsch, hnl, if_neg hw, hqq, filter_sortByKey_filter, sortByKey_idem]
  rfl

/-- Claim C4, amended: URL canonicalization is idempotent on every URL whose
canonical form is already stripped (`h1`), reparses to exactly its cleaned
components (`h2`), and whose cleaned netloc does not still begin with `www.`
(`h3`).  Under these hypotheses a second application of `canonicalize_url`
reproduces its input: the scheme and netloc lowering are idempotent, the
fragment is already gone, and re-encoding the query is a fixed point because
`parse_qsl` inverts `urlencode` and the filtered, stably key-sorted parameter
list is invariant under filtering and sorting again. -/
theorem c4_amended (u : String)
    (h1 : pyStripList (canonicalize_url u).data = (canonicalize_url u).data)
    (h2 : pyUrlparse (canonicalize_url u).data =
      canonicalClean (pyUrlparse (pyStripList u.data)))
    (h3 : ¬ (canonicalClean (pyUrlparse (pyStripList u.data))).netloc.take 4 =
      ['w', 'w', 'w', '.']) :
    canonicalize_url (canonicalize_url u) = canonicalize_url u := by
  by_cases hv : canonicalize_url u = ""
  · rw [hv]
    rfl
  · have hu : ¬ u = "" := fun h => hv (by rw [h]; rfl)
    have e1 : canonicalize_url (canonicalize_url u) =
        if canonicalize_url u = "" then ""
        else ⟨pyUrlunparse (canonicalClean (pyUrlparse
          (pyStripList (canonicalize_url u).data)))⟩ := rfl
    have e2 : canonicalize_url u =
        if u = "" then ""
        else ⟨pyUrlunparse (canonicalClean (pyUrlparse (pyStripList u.data)))⟩ := rfl
    rw [e1, if_neg hv, h1, h2, canonicalClean_idem _ h3]
    rw [e2, if_neg hu]


/-- Witness for the amended Claim C4: a concrete tracking-parameter URL with a
single `www.` satisfies all three hypotheses, and canonicalization is a
projection on it. -/
theorem c4_amended_witness :
    canonicalize_url (canonicalize_url "http://www.Ex.com/a?b=2&utm_source=x") =
      canonicalize_url "http://www.Ex.com/a?b=2&utm_source=x" :=
  c4_amended "http://www.Ex.com/a?b=2&utm_source=x"
    (by with_unfolding_all rfl) (by with_unfolding_all rfl) (by decide)
